import Mathlib

/-!
Verification of the arm-pose-dynamics core pipeline.

The depth-camera background segmentation (`filter_background`, `img_BFS`,
`mask_by_cluster_id` from `src/depthCamManager.cpp`) is embedded shallowly:
depth grids become functions `ℕ → ℕ → ℕ` (column, row ↦ 16-bit depth sample,
modelled as `ℕ`), the cluster map becomes `ℕ → ℕ → ℤ`, and the in-place
mutation of the working copy becomes explicit state passing through a
`BFSState` record.  The while-loop of `img_BFS` is driven by explicit fuel;
its termination is proved separately (the fuel `w * h + 1` always suffices).

The tracker (`src/tracker.h`) ships only declarations; the bodies of
`tracker::cluster`, `tracker::connect_means`, `arm::get_bend_angle` and the
joint update are modelled from the specification, as marked on each
definition.  The `arm` construction-time counter values are taken from the
member initial values that do appear in `src/tracker.h`.
-/

/-- A depth grid: column `x`, row `y` ↦ depth sample (0 = no data).
Mirrors the `CV_16UC1` matrix `cur_src` / `subject_mask`. -/
abbrev Img := ℕ → ℕ → ℕ

/-- A cluster map: column, row ↦ signed 32-bit cluster id (`CV_32SC1`). -/
abbrev CMap := ℕ → ℕ → ℤ

/-- `p` is inside a `w × h` grid (column `p.1`, row `p.2`). -/
def inB (w h : ℕ) (p : ℕ × ℕ) : Prop := p.1 < w ∧ p.2 < h

instance (w h : ℕ) (p : ℕ × ℕ) : Decidable (inB w h p) :=
  inferInstanceAs (Decidable (p.1 < w ∧ p.2 < h))

/-- Point update of a depth grid (`in_p[x_ind] = v`). -/
def updImg (f : Img) (x y v : ℕ) : Img :=
  fun a b => if a = x ∧ b = y then v else f a b

/-- Point update of a cluster map (`clust_p[x_ind] = v`). -/
def updCMap (f : CMap) (x y : ℕ) (v : ℤ) : CMap :=
  fun a b => if a = x ∧ b = y then v else f a b

/-- All cells of a `w × h` grid. -/
def gridCells (w h : ℕ) : Finset (ℕ × ℕ) := Finset.range w ×ˢ Finset.range h

/-- Number of non-zero in-bounds cells of a grid. -/
def cnt (w h : ℕ) (f : Img) : ℕ :=
  ((gridCells w h).filter (fun p => f p.1 p.2 ≠ 0)).card

/-- The inclusive integer range `a, a+1, …, b` (empty when `b < a`),
used to mirror the C++ `for` loops of `img_BFS`. -/
def rangeIcc (a b : ℕ) : List ℕ := (List.range (b + 1 - a)).map (a + ·)

/-- The cells scanned for a popped centre `(x, y)`: the double loop of
`img_BFS` iterating rows `max(y-m, 0) … min(y+m, h-1)` and, in each row,
columns within horizontal Manhattan budget `m - |y_ind - y|`, clamped to
the grid.  Produced in exactly the loop order of the source. -/
def scanPositions (w h x y m : ℕ) : List (ℕ × ℕ) :=
  (rangeIcc (y - m) (min (y + m) (h - 1))).flatMap fun yi =>
    (rangeIcc (x - (m - Nat.dist yi y)) (min (x + (m - Nat.dist yi y)) (w - 1))).map
      fun xi => (xi, yi)

/-- The skip test of the scan body: `in_p[x_ind] == 0 ||
std::abs(centerDepth - in_p[x_ind]) * scale > maxDist`.  Depth samples are
exact integers, so the physical-unit conversion is modelled in `ℚ`. -/
def skipPixel (scale maxDist : ℚ) (cd v : ℕ) : Prop :=
  v = 0 ∨ maxDist < (Nat.dist cd v : ℚ) * scale

instance (scale maxDist : ℚ) (cd v : ℕ) : Decidable (skipPixel scale maxDist cd v) :=
  inferInstanceAs (Decidable (_ ∨ _))

/-- The state threaded through one region-growing pass: the working copy
`input_img`, the cluster map `cluster_img`, the FIFO frontier `neighbors`
(entries `(x, y, depth)`), and `cluster_area`. -/
structure BFSState where
  img : Img
  cmap : CMap
  queue : List (ℕ × ℕ × ℕ)
  area : ℕ

/-- One iteration of the inner scan body of `img_BFS` at candidate cell `q`:
skip when zero or out of depth range, otherwise push `q` onto the frontier,
zero it in the working copy and record the cluster id. -/
def bfsClaim (cid : ℤ) (scale maxDist : ℚ) (cd : ℕ) (st : BFSState) (q : ℕ × ℕ) : BFSState :=
  if skipPixel scale maxDist cd (st.img q.1 q.2) then st
  else
    { img := updImg st.img q.1 q.2 0
      cmap := updCMap st.cmap q.1 q.2 cid
      queue := st.queue ++ [(q.1, q.2, st.img q.1 q.2)]
      area := st.area }

/-- The full diamond scan around a popped centre `(x, y)` with stored depth
`cd` (lines 155-188 of `src/depthCamManager.cpp`). -/
def bfsScan (cid : ℤ) (scale maxDist : ℚ) (w h m x y cd : ℕ) (st : BFSState) : BFSState :=
  (scanPositions w h x y m).foldl (bfsClaim cid scale maxDist cd) st

/-- The `while (true)` loop of `img_BFS`, driven by fuel: increment the
area, scan around the current centre, then pop the next frontier entry or
stop.  `none` means the fuel ran out (shown impossible for fuel `w*h + 1`). -/
def bfsLoop (cid : ℤ) (scale maxDist : ℚ) (w h m : ℕ) :
    ℕ → ℕ × ℕ × ℕ → BFSState → Option BFSState
  | 0, _, _ => none
  | Nat.succ fuel, c, st =>
    let st2 := bfsScan cid scale maxDist w h m c.1 c.2.1 c.2.2 { st with area := st.area + 1 }
    match st2.queue with
    | [] => some st2
    | e :: rest => bfsLoop cid scale maxDist w h m fuel e { st2 with queue := rest }

/-- `depth_cam::img_BFS`: one region-growing pass seeded at `(x, y)`.
Returns the final `cluster_area` together with the updated working copy and
cluster map (which the C++ version mutates through references). -/
def img_BFS (x y : ℕ) (cid : ℤ) (input_img : Img) (cluster_img : CMap)
    (scale maxDist : ℚ) (m w h fuel : ℕ) : Option (ℕ × Img × CMap) :=
  (bfsLoop cid scale maxDist w h m fuel (x, y, input_img x y)
      { img := input_img, cmap := cluster_img, queue := [], area := 1 }).map
    fun st => (st.area, st.img, st.cmap)

/-- `depth_cam::mask_by_cluster_id`: zero every in-bounds cell of
`output_img` whose cluster id differs from `cluster_id`. -/
def mask_by_cluster_id (w h : ℕ) (cluster_img : CMap) (cluster_id : ℤ)
    (output_img : Img) : Img :=
  fun x y =>
    if x < w ∧ y < h then
      if cluster_img x y = cluster_id then output_img x y else 0
    else output_img x y

/-- The local state of `depth_cam::filter_background`: the working copy
`subject_mask`, the cluster map `clustered`, and the largest-cluster
bookkeeping. -/
structure SegState where
  mask : Img
  cmap : CMap
  largest_ind : ℤ
  largest_area : ℕ
  current_ind : ℤ

/-- The cells of a `w × h` grid in row-major order, as scanned by the outer
loop of `filter_background`. -/
def rowMajor (w h : ℕ) : List (ℕ × ℕ) :=
  (List.range h).flatMap fun i => (List.range w).map fun j => (j, i)

/-- One step of the outer scan of `filter_background` at cell `p`: when the
working copy is non-zero there, run a region-growing pass with a fresh id,
update the largest-cluster bookkeeping (strict comparison: first-found wins
ties), and advance the id counter. -/
def segStep (scale maxDist : ℚ) (m w h : ℕ) (ost : Option SegState) (p : ℕ × ℕ) :
    Option SegState :=
  ost.bind fun st =>
    if st.mask p.1 p.2 ≠ 0 then
      (img_BFS p.1 p.2 st.current_ind st.mask st.cmap scale maxDist m w h (w * h + 1)).map
        fun r =>
          { mask := r.2.1
            cmap := r.2.2
            largest_ind := if st.largest_area < r.1 then st.current_ind else st.largest_ind
            largest_area := if st.largest_area < r.1 then r.1 else st.largest_area
            current_ind := st.current_ind + 1 }
    else some st

/-- The initial state of `filter_background` on input grid `g`: the working
copy is a copy of the source, the cluster map is all zeros, no largest
cluster yet (`largest_ind = -1`), ids start at 0. -/
def segInit (g : Img) : SegState :=
  { mask := g, cmap := fun _ _ => 0, largest_ind := -1, largest_area := 0, current_ind := 0 }

/-- The outer scan of `filter_background` over all cells. -/
def segRun (scale maxDist : ℚ) (m w h : ℕ) (g : Img) : Option SegState :=
  (rowMajor w h).foldl (segStep scale maxDist m w h) (some (segInit g))

/-- `depth_cam::filter_background`: segment the grid into depth-continuous
clusters and keep only the largest one in the original source. -/
def filter_background (scale maxDist : ℚ) (m w h : ℕ) (g : Img) : Option Img :=
  (segRun scale maxDist m w h g).map fun st =>
    mask_by_cluster_id w h st.cmap st.largest_ind g

/-- Depth-continuity adjacency between grid cells, as enforced by the scan
of `img_BFS`: both cells in bounds and non-zero, within Manhattan distance
`m`, and with depth difference (in physical units) not above `maxDist`. -/
def gridEdge (w h m : ℕ) (scale maxDist : ℚ) (g : Img) (p q : ℕ × ℕ) : Prop :=
  inB w h p ∧ inB w h q ∧ g p.1 p.2 ≠ 0 ∧ g q.1 q.2 ≠ 0 ∧
    Nat.dist q.1 p.1 + Nat.dist q.2 p.2 ≤ m ∧
    ¬ maxDist < (Nat.dist (g p.1 p.2) (g q.1 q.2) : ℚ) * scale

/-- Reachability through depth-continuity adjacency: the connected region
grown from seed `s`. -/
def reach (w h m : ℕ) (scale maxDist : ℚ) (g : Img) (s p : ℕ × ℕ) : Prop :=
  Relation.ReflTransGen (gridEdge w h m scale maxDist g) s p

/-- The in-bounds cells of cluster `i`: non-zero in the source grid and
labelled `i` in the cluster map. -/
def clusterCells (w h : ℕ) (g : Img) (c : CMap) (i : ℤ) : Finset (ℕ × ℕ) :=
  (gridCells w h).filter fun p => g p.1 p.2 ≠ 0 ∧ c p.1 p.2 = i

/-! ### The skeletal tracker (`src/tracker.h`)

Only the class declarations of `tracker` and `arm` are under `src/`; the
member function bodies are not.  Following the specification, the missing
bodies are modelled from its words, and each such definition is marked
`Modelled from the spec`.  Points are rational triples. -/

/-- A 3D point (one row of a `CV_32FC1` 1×3 matrix), with exact rational
coordinates standing in for the float coordinates. -/
abbrev Vec3 := ℚ × ℚ × ℚ

/-- Squared Euclidean distance between two points. -/
def distSq (a b : Vec3) : ℚ :=
  (a.1 - b.1) ^ 2 + (a.2.1 - b.2.1) ^ 2 + (a.2.2 - b.2.2) ^ 2

/-- The tracker's data members (`cluster_ind`, `centers`, `source_cloud`
and the cluster count `k` fixed at construction). -/
structure TrackerState where
  cluster_ind : List ℕ
  centers : List Vec3
  source_cloud : List Vec3
  k : ℕ

/-- The pluggable k-means capability (spec §4.2 and §9): given the restart
count, iteration cap, precision threshold, the cluster count `k` and the
point cloud, it produces the `k` cluster centers and the per-point
assignment.  Producing exactly `k` centers is part of its contract. -/
structure KMeansSolver where
  run : ℕ → ℕ → ℚ → ℕ → List Vec3 → List Vec3 × List ℕ
  centers_len : ∀ n max_iter epsilon k pts, (run n max_iter epsilon k pts).1.length = k

/-- Modelled from the spec: the body of `tracker::cluster` is not under
`src/` (only its declaration in `tracker.h` is).  Per spec §4.2, `cluster`
requires the current cloud's point count to exceed `k`; if not it returns
failure and leaves the prior cluster assignment and centers untouched;
otherwise the k-means capability overwrites the assignment and the `k`
centers and it returns success. -/
def tracker.cluster (solver : KMeansSolver) (st : TrackerState)
    (n max_iter : ℕ) (epsilon : ℚ) : Bool × TrackerState :=
  if st.source_cloud.length ≤ st.k then (false, st)
  else
    (true,
      { st with
        centers := (solver.run n max_iter epsilon st.k st.source_cloud).1
        cluster_ind := (solver.run n max_iter epsilon st.k st.source_cloud).2 })

/-- Modelled from the spec: the body of `tracker::connect_means` is not
under `src/`.  Per spec §4.2, edge `(i, j)` is set iff the Euclidean
distance between `center_i` and `center_j` is strictly below `threshold`.
Over rational coordinates the strict real comparison `dist < threshold` is
expressed as `0 < threshold ∧ distSq < threshold ^ 2`, which is equivalent
because the Euclidean distance is the nonnegative square root of `distSq`. -/
def tracker.connect_means (centers : List Vec3) (threshold : ℚ) (i j : ℕ) : Bool :=
  decide (0 < threshold ∧ distSq (centers.getD i (0, 0, 0)) (centers.getD j (0, 0, 0)) < threshold ^ 2)

/-- The per-arm tracking counters of `arm` (`src/tracker.h`, private
section): the current step, the missed-step budget, and the last
successfully tracked step. -/
structure ArmCounters where
  tracking_step : ℤ
  max_missed_steps : ℤ
  last_tracked_step : ℤ

/-- The member initial values of `arm` (`src/tracker.h` lines 128-130):
`tracking_step = 0`, `max_missed_steps = 5`,
`last_tracked_step = -max_missed_steps - 1`. -/
def arm.initCounters : ArmCounters :=
  let mms : ℤ := 5
  { tracking_step := 0, max_missed_steps := mms, last_tracked_step := -mms - 1 }

/-- The limb-lost condition of the spec (§3, ArmTrackingState): the limb is
considered lost once `current_step - last_tracked_step > max_missed_steps`. -/
def arm.lost (st : ArmCounters) : Prop :=
  st.max_missed_steps < st.tracking_step - st.last_tracked_step

instance (st : ArmCounters) : Decidable (arm.lost st) :=
  inferInstanceAs (Decidable (_ < _))

/-- Modelled from the spec: the body of `arm::update_joints` is not under
`src/`.  Per spec §3 and §4.3, each tracking cycle advances the step
counter monotonically, and a successful update records the current step in
`last_tracked_step`. -/
def arm.stepCounters (st : ArmCounters) (success : Bool) : ArmCounters :=
  let t := st.tracking_step + 1
  { st with
    tracking_step := t
    last_tracked_step := if success then t else st.last_tracked_step }

/-- A 3D point with real coordinates, for the bend-angle geometry. -/
abbrev RVec3 := ℝ × ℝ × ℝ

/-- Componentwise difference of real points. -/
def sub3 (a b : RVec3) : RVec3 := (a.1 - b.1, a.2.1 - b.2.1, a.2.2 - b.2.2)

/-- Dot product of real points. -/
def dot3 (a b : RVec3) : ℝ := a.1 * b.1 + a.2.1 * b.2.1 + a.2.2 * b.2.2

/-- Squared Euclidean norm of a real point. -/
def normSq3 (a : RVec3) : ℝ := dot3 a a

open Classical in
/-- Modelled from the spec: the body of `arm::get_bend_angle` is not under
`src/`.  Per spec §4.3 and §7(c), it returns the angle in degrees between
`hand - elbow` and `shoulder - elbow` via the arccosine of the normalized
dot product, and signals an explicit error (`none`), never a silent NaN,
when either vector has near-zero length, i.e. length below the tolerance
`eps`. -/
noncomputable def arm.get_bend_angle (hand elbow shoulder : RVec3) (eps : ℝ) : Option ℝ :=
  if normSq3 (sub3 hand elbow) < eps ^ 2 ∨ normSq3 (sub3 shoulder elbow) < eps ^ 2 then none
  else
    some (Real.arccos (dot3 (sub3 hand elbow) (sub3 shoulder elbow) /
        (Real.sqrt (normSq3 (sub3 hand elbow)) * Real.sqrt (normSq3 (sub3 shoulder elbow))))
      * 180 / Real.pi)

/-! ### Invariant vocabulary for the segmentation proofs -/

/-- The position stored in a frontier entry. -/
def qpos (e : ℕ × ℕ × ℕ) : ℕ × ℕ := (e.1, e.2.1)

/-- A working copy `f` represents base grid `f₀` with the cells of `K`
claimed: claimed cells are zeroed, all others still carry their base value. -/
def RepI (f₀ : Img) (K : Set (ℕ × ℕ)) (f : Img) : Prop :=
  (∀ p ∈ K, f p.1 p.2 = 0) ∧ ∀ p ∉ K, f p.1 p.2 = f₀ p.1 p.2

/-- A cluster map `c` represents base map `c₀` with the cells of `K`
rewritten to `cid`. -/
def RepC (c₀ : CMap) (cid : ℤ) (K : Set (ℕ × ℕ)) (c : CMap) : Prop :=
  (∀ p ∈ K, c p.1 p.2 = cid) ∧ ∀ p ∉ K, c p.1 p.2 = c₀ p.1 p.2

/-- Frontier sanity: every queued entry is a claimed in-bounds cell and
stores that cell's base depth. -/
def QInv (w h : ℕ) (f₀ : Img) (K : Set (ℕ × ℕ)) (Q : List (ℕ × ℕ × ℕ)) : Prop :=
  ∀ e ∈ Q, qpos e ∈ K ∧ e.2.2 = f₀ e.1 e.2.1 ∧ inB w h (qpos e)

/-- The pixels claimable in one scan around a centre with stored depth `cd`:
non-zero in the base grid and within the physical depth tolerance of `cd`. -/
def cand (scale maxDist : ℚ) (f₀ : Img) (cd : ℕ) (q : ℕ × ℕ) : Prop :=
  f₀ q.1 q.2 ≠ 0 ∧ ¬ maxDist < (Nat.dist cd (f₀ q.1 q.2) : ℚ) * scale

/-- A cell claimed by the outer segmentation scan: in bounds, non-zero in
the source, and zeroed in the working copy. -/
def Claimed (w h : ℕ) (g : Img) (st : SegState) (p : ℕ × ℕ) : Prop :=
  inB w h p ∧ g p.1 p.2 ≠ 0 ∧ st.mask p.1 p.2 = 0

/-- The set of cells claimed with id `i` during the outer scan. -/
def classOf (w h : ℕ) (g : Img) (st : SegState) (i : ℤ) : Set (ℕ × ℕ) :=
  {p | Claimed w h g st p ∧ st.cmap p.1 p.2 = i}

/-- The finset of cells claimed with id `i` during the outer scan. -/
def clFin (w h : ℕ) (g : Img) (st : SegState) (i : ℤ) : Finset (ℕ × ℕ) :=
  (gridCells w h).filter fun p =>
    g p.1 p.2 ≠ 0 ∧ st.mask p.1 p.2 = 0 ∧ st.cmap p.1 p.2 = i

/-- Edges of the depth-continuity graph restricted to a set `S`. -/
def edgeIn (w h m : ℕ) (scale maxDist : ℚ) (g : Img) (S : Set (ℕ × ℕ)) (p q : ℕ × ℕ) : Prop :=
  p ∈ S ∧ q ∈ S ∧ gridEdge w h m scale maxDist g p q

/-- The invariant maintained by the outer scan of `filter_background`:
the working copy is the source with claimed cells zeroed; the cluster map
is zero off the claimed cells and carries an id in `[0, current_ind)` on
them; each finished cluster is internally connected through its own cells;
and the largest-cluster bookkeeping records the first id of maximum area,
the recorded area of a cluster with `c` cells being `c + 2`. -/
structure SegInv (scale maxDist : ℚ) (m w h : ℕ) (g : Img) (st : SegState) : Prop where
  maskRep : ∀ p : ℕ × ℕ, st.mask p.1 p.2 = g p.1 p.2 ∨
    (inB w h p ∧ g p.1 p.2 ≠ 0 ∧ st.mask p.1 p.2 = 0)
  cmapZero : ∀ p : ℕ × ℕ, ¬ Claimed w h g st p → st.cmap p.1 p.2 = 0
  cmapRange : ∀ p : ℕ × ℕ, Claimed w h g st p →
    0 ≤ st.cmap p.1 p.2 ∧ st.cmap p.1 p.2 < st.current_ind
  classConn : ∀ i : ℤ, 0 ≤ i → i < st.current_ind →
    ∃ s ∈ classOf w h g st i, ∀ q ∈ classOf w h g st i,
      Relation.ReflTransGen (edgeIn w h m scale maxDist g (classOf w h g st i)) s q
  largest : (st.current_ind = 0 ∧ st.largest_ind = -1 ∧ st.largest_area = 0) ∨
    (0 ≤ st.largest_ind ∧ st.largest_ind < st.current_ind ∧
      st.largest_area = (clFin w h g st st.largest_ind).card + 2 ∧
      (∀ i : ℤ, 0 ≤ i → i < st.current_ind → (clFin w h g st i).card + 2 ≤ st.largest_area) ∧
      (∀ i : ℤ, 0 ≤ i → i < st.largest_ind → (clFin w h g st i).card + 2 < st.largest_area))

/-! ### Concrete inputs used by the evaluation, counterexample and witness
theorems -/

/-- A 1×1 grid holding one non-zero depth sample. -/
def singlePixelGrid : Img := fun a b => if a = 0 ∧ b = 0 then 5 else 0

/-- A 2×1 grid with depths 10 and 15: with `scale = 1` and `maxDist = 5`
the depth difference of the two cells is exactly at the tolerance. -/
def boundaryGrid : Img :=
  fun a b => if a = 0 ∧ b = 0 then 10 else if a = 1 ∧ b = 0 then 15 else 0

/-- The scan state right before the boundary cell `(1, 0)` is examined. -/
def boundarySt : BFSState :=
  { img := boundaryGrid, cmap := fun _ _ => 0, queue := [], area := 1 }

/-- The working copy left by segmenting the 1×1 single-pixel grid: the
lone pixel has been claimed (zeroed). -/
def witMask : Img := updImg singlePixelGrid 0 0 0

/-- The cluster map left by segmenting the 1×1 single-pixel grid. -/
def witCMap : CMap := updCMap (fun _ _ => 0) 0 0 0

/-- The full outer-scan state after segmenting the 1×1 single-pixel grid:
one cluster (id 0) with recorded area 3. -/
def witSt : SegState :=
  { mask := witMask, cmap := witCMap, largest_ind := 0, largest_area := 3, current_ind := 1 }

/-- The output grid of segmenting the 1×1 single-pixel grid. -/
def witOut : Img := mask_by_cluster_id 1 1 witCMap 0 singlePixelGrid

/-- A deterministic stand-in for the pluggable k-means capability, used to
instantiate the cluster guard theorem on concrete data. -/
def constSolver : KMeansSolver where
  run := fun _ _ _ k _ => (List.replicate k (0, 0, 0), [])
  centers_len := fun _ _ _ _ _ => List.length_replicate ..

/-! ## Theorems -/

theorem mem_rangeIcc {a b i : ℕ} : i ∈ rangeIcc a b ↔ a ≤ i ∧ i ≤ b := by
  simp only [rangeIcc, List.mem_map, List.mem_range]
  constructor
  · rintro ⟨j, hj, rfl⟩; omega
  · rintro ⟨h1, h2⟩; exact ⟨i - a, by omega, by omega⟩

theorem mem_scanPositions {w h x y m : ℕ} (hw : 0 < w) (hh : 0 < h) {q : ℕ × ℕ} :
    q ∈ scanPositions w h x y m ↔
      q.1 < w ∧ q.2 < h ∧ Nat.dist q.1 x + Nat.dist q.2 y ≤ m := by
  obtain ⟨qx, qy⟩ := q
  simp only [scanPositions, List.mem_flatMap, List.mem_map, mem_rangeIcc,
    le_min_iff, Prod.mk.injEq, Nat.dist]
  constructor
  · rintro ⟨yi, ⟨hy1, hy2, hy3⟩, xi, ⟨⟨hx1, hx2, hx3⟩, rfl, rfl⟩⟩
    omega
  · rintro ⟨h1, h2, h3⟩
    exact ⟨qy, ⟨by omega, by omega, by omega⟩, qx, ⟨by omega, by omega, by omega⟩, rfl, rfl⟩

theorem mem_rowMajor {w h : ℕ} {p : ℕ × ℕ} : p ∈ rowMajor w h ↔ p.1 < w ∧ p.2 < h := by
  obtain ⟨a, b⟩ := p
  simp only [rowMajor, List.mem_flatMap, List.mem_map, List.mem_range, Prod.mk.injEq]
  constructor
  · rintro ⟨i, hi, j, hj, rfl, rfl⟩; exact ⟨hj, hi⟩
  · rintro ⟨h1, h2⟩; exact ⟨b, h2, a, h1, rfl, rfl⟩

/-- Claim C5: for a popped centre `(x, y)` in a `w × h` grid, the cells
scanned as candidate neighbours are exactly the in-bounds cells at Manhattan
distance at most `manhattanRadius` from the centre: a diamond-shaped
window. -/
theorem scan_window_is_manhattan_diamond (w h x y m : ℕ) (hw : 0 < w) (hh : 0 < h)
    (hx : x < w) (hy : y < h) (q : ℕ × ℕ) :
    q ∈ scanPositions w h x y m ↔
      q.1 < w ∧ q.2 < h ∧ Nat.dist q.1 x + Nat.dist q.2 y ≤ m :=
  mem_scanPositions hw hh

/-- Witness for C5: in a 5×5 grid with radius 2 around centre `(2, 2)`, the
corner `(0, 0)` (Manhattan distance 4) is not scanned while `(1, 1)`
(Manhattan distance 2) is. -/
theorem scan_window_is_manhattan_diamond_witness :
    (0 < 5 ∧ 2 < 5) ∧
      (((1, 1) : ℕ × ℕ) ∈ scanPositions 5 5 2 2 2 ↔
        1 < 5 ∧ 1 < 5 ∧ Nat.dist 1 2 + Nat.dist 1 2 ≤ 2) ∧
      (((0, 0) : ℕ × ℕ) ∈ scanPositions 5 5 2 2 2 ↔
        0 < 5 ∧ 0 < 5 ∧ Nat.dist 0 2 + Nat.dist 0 2 ≤ 2) :=
  ⟨⟨by decide, by decide⟩,
    scan_window_is_manhattan_diamond 5 5 2 2 2 (by decide) (by decide) (by decide) (by decide)
      (1, 1),
    scan_window_is_manhattan_diamond 5 5 2 2 2 (by decide) (by decide) (by decide) (by decide)
      (0, 0)⟩

theorem bfsClaim_of_skip {cid : ℤ} {scale maxDist : ℚ} {cd : ℕ} {st : BFSState} {q : ℕ × ℕ}
    (h : skipPixel scale maxDist cd (st.img q.1 q.2)) :
    bfsClaim cid scale maxDist cd st q = st := by
  simp [bfsClaim, h]

theorem bfsClaim_of_claim {cid : ℤ} {scale maxDist : ℚ} {cd : ℕ} {st : BFSState} {q : ℕ × ℕ}
    (h : ¬ skipPixel scale maxDist cd (st.img q.1 q.2)) :
    bfsClaim cid scale maxDist cd st q =
      { img := updImg st.img q.1 q.2 0
        cmap := updCMap st.cmap q.1 q.2 cid
        queue := st.queue ++ [(q.1, q.2, st.img q.1 q.2)]
        area := st.area } := by
  simp [bfsClaim, h]

/-- Claim C3 (amended): a scanned pixel is absorbed into the current
cluster — pushed onto the frontier, marked in the cluster map and zeroed in
the working copy — if and only if it is non-zero in the working copy and its
absolute depth difference from the popped pixel, converted to physical
units via the scale factor, is at most `maxDepthDelta` (the comparison is
non-strict: the source skips only when the difference exceeds `maxDist`). -/
theorem scanned_pixel_absorbed_iff (cid : ℤ) (scale maxDist : ℚ) (cd : ℕ)
    (st : BFSState) (q : ℕ × ℕ) :
    ((bfsClaim cid scale maxDist cd st q).queue.length = st.queue.length + 1 ↔
      st.img q.1 q.2 ≠ 0 ∧ (Nat.dist cd (st.img q.1 q.2) : ℚ) * scale ≤ maxDist) ∧
    (st.img q.1 q.2 ≠ 0 → (Nat.dist cd (st.img q.1 q.2) : ℚ) * scale ≤ maxDist →
      (bfsClaim cid scale maxDist cd st q).img q.1 q.2 = 0 ∧
      (bfsClaim cid scale maxDist cd st q).cmap q.1 q.2 = cid ∧
      (bfsClaim cid scale maxDist cd st q).queue
        = st.queue ++ [(q.1, q.2, st.img q.1 q.2)]) ∧
    (¬ (st.img q.1 q.2 ≠ 0 ∧ (Nat.dist cd (st.img q.1 q.2) : ℚ) * scale ≤ maxDist) →
      bfsClaim cid scale maxDist cd st q = st) := by
  have hiff : ¬ skipPixel scale maxDist cd (st.img q.1 q.2) ↔
      st.img q.1 q.2 ≠ 0 ∧ (Nat.dist cd (st.img q.1 q.2) : ℚ) * scale ≤ maxDist := by
    unfold skipPixel
    rw [not_or, not_lt]
  refine ⟨?_, ?_, ?_⟩
  · constructor
    · intro hlen
      by_contra hn
      rw [bfsClaim_of_skip (of_not_not ((not_iff_not.mpr hiff).mpr hn))] at hlen
      omega
    · intro hc
      rw [bfsClaim_of_claim (hiff.mpr hc)]
      simp
  · intro h1 h2
    rw [bfsClaim_of_claim (hiff.mpr ⟨h1, h2⟩)]
    refine ⟨by simp [updImg], by simp [updCMap], rfl⟩
  · intro hn
    exact bfsClaim_of_skip (of_not_not ((not_iff_not.mpr hiff).mpr hn))

/-- Claim C3 counterexample: with `scale = 1` and `maxDist = 5`, a scanned
pixel of depth 15 against a popped pixel of stored depth 10 sits exactly at
the tolerance.  The strict condition of the claim
(`difference * scale < maxDist`) is false, yet the pixel is absorbed:
zeroed in the working copy, labelled in the cluster map, and pushed onto
the frontier. -/
theorem scanned_pixel_absorbed_at_exact_tolerance :
    (bfsClaim 0 1 5 10 boundarySt (1, 0)).img 1 0 = 0 ∧
    (bfsClaim 0 1 5 10 boundarySt (1, 0)).cmap 1 0 = 0 ∧
    (bfsClaim 0 1 5 10 boundarySt (1, 0)).queue = [(1, 0, 15)] ∧
    boundarySt.img 1 0 ≠ 0 ∧
    ¬ ((Nat.dist 10 (boundarySt.img 1 0) : ℚ) * 1 < 5) := by
  have himg : boundarySt.img 1 0 = 15 := by norm_num [boundarySt, boundaryGrid]
  have hns : ¬ skipPixel 1 5 10 (boundarySt.img 1 0) := by
    rw [himg]
    unfold skipPixel
    rw [not_or, not_lt]
    norm_num [Nat.dist]
  refine ⟨?_, ?_, ?_, by rw [himg]; norm_num, by rw [himg]; norm_num [Nat.dist]⟩
  · rw [bfsClaim_of_claim hns]
    simp [updImg]
  · rw [bfsClaim_of_claim hns]
    simp [updCMap]
  · rw [bfsClaim_of_claim hns, himg]
    simp [boundarySt]

/-- Witness for the amended C3: at the exact-tolerance input the
absorption criterion holds and the frontier indeed grows by one. -/
theorem scanned_pixel_absorbed_iff_witness :
    (boundarySt.img 1 0 ≠ 0 ∧ (Nat.dist 10 (boundarySt.img 1 0) : ℚ) * 1 ≤ 5) ∧
    (bfsClaim 0 1 5 10 boundarySt (1, 0)).queue.length = boundarySt.queue.length + 1 := by
  have hc : boundarySt.img 1 0 ≠ 0 ∧ (Nat.dist 10 (boundarySt.img 1 0) : ℚ) * 1 ≤ 5 := by
    have himg : boundarySt.img 1 0 = 15 := by norm_num [boundarySt, boundaryGrid]
    rw [himg]
    norm_num [Nat.dist]
  exact ⟨hc, (scanned_pixel_absorbed_iff 0 1 5 10 boundarySt (1, 0)).1.mpr hc⟩

/-- Claim C9: immediately after constructing an `arm`, `tracking_step` is 0
and `last_tracked_step` is `-max_missed_steps - 1`, so the difference
`tracking_step - last_tracked_step` equals `max_missed_steps + 1`, which
already exceeds the missed-step budget: a fresh arm is in the lost
condition; the invariant `last_tracked_step ≤ tracking_step` holds at
construction and is preserved by every (spec-modelled) tracking step. -/
theorem arm_constructed_lost :
    arm.initCounters.tracking_step = 0 ∧
    arm.initCounters.last_tracked_step = -arm.initCounters.max_missed_steps - 1 ∧
    arm.initCounters.tracking_step - arm.initCounters.last_tracked_step
      = arm.initCounters.max_missed_steps + 1 ∧
    arm.lost arm.initCounters ∧
    arm.initCounters.last_tracked_step ≤ arm.initCounters.tracking_step ∧
    ∀ (st : ArmCounters) (b : Bool), st.last_tracked_step ≤ st.tracking_step →
      (arm.stepCounters st b).last_tracked_step ≤ (arm.stepCounters st b).tracking_step := by
  refine ⟨by decide, by decide, by decide, by decide, by decide, ?_⟩
  intro st b hle
  cases b <;> simp [arm.stepCounters] <;> omega

/-- Witness for C9: the step-preservation component at a concrete counter
state and a successful step. -/
theorem arm_constructed_lost_witness :
    (arm.initCounters.last_tracked_step ≤ arm.initCounters.tracking_step) ∧
    (arm.stepCounters arm.initCounters true).last_tracked_step ≤
      (arm.stepCounters arm.initCounters true).tracking_step :=
  ⟨by decide, arm_constructed_lost.2.2.2.2.2 arm.initCounters true (by decide)⟩

/-- Claim C6: whenever the point cloud holds at most `k` points, `cluster`
returns failure and leaves the prior assignment and centers completely
unchanged; otherwise it returns success and the resulting centers hold
exactly `k` centers.  (Spec-modelled: the body of `tracker::cluster` is not
under `src/`.) -/
theorem cluster_guard_and_center_count (solver : KMeansSolver) (st : TrackerState)
    (n max_iter : ℕ) (epsilon : ℚ) :
    (st.source_cloud.length ≤ st.k →
      tracker.cluster solver st n max_iter epsilon = (false, st)) ∧
    (st.k < st.source_cloud.length →
      (tracker.cluster solver st n max_iter epsilon).1 = true ∧
      (tracker.cluster solver st n max_iter epsilon).2.centers.length = st.k ∧
      (tracker.cluster solver st n max_iter epsilon).2.k = st.k) := by
  constructor
  · intro hle
    simp [tracker.cluster, hle]
  · intro hlt
    simp [tracker.cluster, Nat.not_le.mpr hlt, solver.centers_len]

/-- Witness for C6: a two-point cloud with `k = 1` passes the guard and
yields exactly one center; with the same solver a one-point cloud fails and
is left untouched. -/
theorem cluster_guard_and_center_count_witness :
    ((1 : ℕ) < 2 ∧
      ((tracker.cluster constSolver ⟨[], [], [(0, 0, 0), (1, 0, 0)], 1⟩ 3 10 1).1 = true ∧
        (tracker.cluster constSolver ⟨[], [], [(0, 0, 0), (1, 0, 0)], 1⟩ 3 10 1).2.centers.length
          = 1 ∧
        (tracker.cluster constSolver ⟨[], [], [(0, 0, 0), (1, 0, 0)], 1⟩ 3 10 1).2.k = 1)) ∧
    ((1 : ℕ) ≤ 1 ∧
      tracker.cluster constSolver ⟨[], [], [(0, 0, 0)], 1⟩ 3 10 1
        = (false, ⟨[], [], [(0, 0, 0)], 1⟩)) :=
  ⟨⟨by decide,
      (cluster_guard_and_center_count constSolver ⟨[], [], [(0, 0, 0), (1, 0, 0)], 1⟩ 3 10 1).2
        (by decide)⟩,
    ⟨by decide,
      (cluster_guard_and_center_count constSolver ⟨[], [], [(0, 0, 0)], 1⟩ 3 10 1).1
        (by decide)⟩⟩

theorem distSq_comm (a b : Vec3) : distSq a b = distSq b a := by
  unfold distSq
  ring

theorem distSq_self (a : Vec3) : distSq a a = 0 := by
  unfold distSq
  ring

/-- Claim C7 counterexample: with a single center and threshold 1, the
self-edge `(0, 0)` is set (the center is at Euclidean distance 0 from
itself, and `0 < 1`), contradicting the claim that self-edges are false. -/
theorem connect_means_self_edge_set :
    tracker.connect_means [(0, 0, 0)] 1 0 0 = true := by
  unfold tracker.connect_means
  rw [decide_eq_true_iff]
  refine ⟨by norm_num, ?_⟩
  rw [distSq_self]
  norm_num

/-- Claim C7 (amended): `connect_means(threshold)` sets edge `(i, j)` iff
the Euclidean distance between `center_i` and `center_j` is strictly below
`threshold` (expressed over squared distances); the adjacency is symmetric;
a self-edge is set iff the threshold is positive (not: never false); and
increasing the threshold never removes an edge.  (Spec-modelled: the body
of `tracker::connect_means` is not under `src/`.) -/
theorem connect_means_props (centers : List Vec3) (threshold : ℚ) (i j : ℕ) :
    (tracker.connect_means centers threshold i j = true ↔
      0 < threshold ∧
        distSq (centers.getD i (0, 0, 0)) (centers.getD j (0, 0, 0)) < threshold ^ 2) ∧
    tracker.connect_means centers threshold i j = tracker.connect_means centers threshold j i ∧
    (tracker.connect_means centers threshold i i = true ↔ 0 < threshold) ∧
    ∀ t' : ℚ, threshold ≤ t' →
      tracker.connect_means centers threshold i j = true →
      tracker.connect_means centers t' i j = true := by
  refine ⟨?_, ?_, ?_, ?_⟩
  · unfold tracker.connect_means
    exact decide_eq_true_iff
  · unfold tracker.connect_means
    rw [distSq_comm]
  · unfold tracker.connect_means
    rw [decide_eq_true_iff]
    constructor
    · exact fun hc => hc.1
    · intro ht
      exact ⟨ht, by rw [distSq_self]; positivity⟩
  · intro t' hle hedge
    unfold tracker.connect_means at hedge ⊢
    rw [decide_eq_true_iff] at hedge ⊢
    obtain ⟨ht, hd⟩ := hedge
    exact ⟨lt_of_lt_of_le ht hle,
      lt_of_lt_of_le hd (pow_le_pow_left₀ (le_of_lt ht) hle 2)⟩

/-- Witness for the amended C7: monotonicity applied at a concrete pair of
centers and thresholds 2 ≤ 3. -/
theorem connect_means_props_witness :
    ((2 : ℚ) ≤ 3 ∧ tracker.connect_means [(0, 0, 0), (1, 0, 0)] 2 0 1 = true) ∧
    tracker.connect_means [(0, 0, 0), (1, 0, 0)] 3 0 1 = true := by
  have he : tracker.connect_means [(0, 0, 0), (1, 0, 0)] 2 0 1 = true := by
    unfold tracker.connect_means
    rw [decide_eq_true_iff]
    norm_num [distSq]
  exact ⟨⟨by norm_num, he⟩,
    (connect_means_props [(0, 0, 0), (1, 0, 0)] 2 0 1).2.2.2 3 (by norm_num) he⟩

/-- Claim C8: when either of the vectors `hand - elbow` or
`shoulder - elbow` has near-zero length (length below the tolerance `eps`,
stated over squared norms), `get_bend_angle` signals an explicit error
(`none`) rather than a silent NaN; otherwise it returns the angle in
degrees between the two vectors, the arccosine of the normalized dot
product scaled by `180 / π`.  (Spec-modelled: the body of
`arm::get_bend_angle` is not under `src/`.) -/
theorem get_bend_angle_error_or_degrees (hand elbow shoulder : RVec3) (eps : ℝ) :
    (normSq3 (sub3 hand elbow) < eps ^ 2 ∨ normSq3 (sub3 shoulder elbow) < eps ^ 2 →
      arm.get_bend_angle hand elbow shoulder eps = none) ∧
    (¬ (normSq3 (sub3 hand elbow) < eps ^ 2 ∨ normSq3 (sub3 shoulder elbow) < eps ^ 2) →
      arm.get_bend_angle hand elbow shoulder eps =
        some (Real.arccos (dot3 (sub3 hand elbow) (sub3 shoulder elbow) /
            (Real.sqrt (normSq3 (sub3 hand elbow)) * Real.sqrt (normSq3 (sub3 shoulder elbow))))
          * 180 / Real.pi)) := by
  constructor
  · intro hdeg
    unfold arm.get_bend_angle
    rw [if_pos hdeg]
  · intro hok
    unfold arm.get_bend_angle
    rw [if_neg hok]

/-- Witness for C8: a degenerate configuration with `hand = elbow` yields
the explicit error value. -/
theorem get_bend_angle_error_or_degrees_witness :
    (normSq3 (sub3 (0, 0, 0) (0, 0, 0)) < (1 : ℝ) ^ 2 ∨
      normSq3 (sub3 (1, 0, 0) (0, 0, 0)) < (1 : ℝ) ^ 2) ∧
    arm.get_bend_angle (0, 0, 0) (0, 0, 0) (1, 0, 0) 1 = none := by
  have hdeg : normSq3 (sub3 ((0 : ℝ), (0 : ℝ), (0 : ℝ)) (0, 0, 0)) < (1 : ℝ) ^ 2 ∨
      normSq3 (sub3 ((1 : ℝ), (0 : ℝ), (0 : ℝ)) (0, 0, 0)) < (1 : ℝ) ^ 2 := by
    left
    norm_num [normSq3, dot3, sub3]
  exact ⟨hdeg, (get_bend_angle_error_or_degrees (0, 0, 0) (0, 0, 0) (1, 0, 0) 1).1 hdeg⟩

theorem mem_gridCells {w h : ℕ} {p : ℕ × ℕ} : p ∈ gridCells w h ↔ p.1 < w ∧ p.2 < h := by
  simp [gridCells, Finset.mem_product]

theorem card_gridCells (w h : ℕ) : (gridCells w h).card = w * h := by
  simp [gridCells]

theorem cnt_le (w h : ℕ) (f : Img) : cnt w h f ≤ w * h := by
  calc cnt w h f ≤ (gridCells w h).card := Finset.card_filter_le _ _
    _ = w * h := card_gridCells w h

theorem updImg_self (f : Img) (x y v : ℕ) : updImg f x y v x y = v := by
  simp [updImg]

theorem updImg_other (f : Img) (x y v a b : ℕ) (hab : ¬ (a = x ∧ b = y)) :
    updImg f x y v a b = f a b := by
  simp [updImg, hab]

theorem cnt_updImg_zero {w h : ℕ} {f : Img} {x y : ℕ} (hin : inB w h (x, y))
    (hnz : f x y ≠ 0) : cnt w h (updImg f x y 0) + 1 = cnt w h f := by
  have hmem : (x, y) ∈ (gridCells w h).filter (fun p => f p.1 p.2 ≠ 0) := by
    simp only [Finset.mem_filter, mem_gridCells]
    exact ⟨hin, hnz⟩
  have hset : (gridCells w h).filter (fun p => updImg f x y 0 p.1 p.2 ≠ 0)
      = ((gridCells w h).filter (fun p => f p.1 p.2 ≠ 0)).erase (x, y) := by
    ext ⟨a, b⟩
    simp only [Finset.mem_filter, Finset.mem_erase, updImg, Prod.mk.injEq]
    constructor
    · rintro ⟨hc, hv⟩
      by_cases hab : a = x ∧ b = y
      · rw [if_pos hab] at hv
        exact absurd rfl hv
      · rw [if_neg hab] at hv
        refine ⟨?_, hc, hv⟩
        intro hcon
        exact hab ⟨congrArg Prod.fst hcon, congrArg Prod.snd hcon⟩
    · rintro ⟨hne, hc, hv⟩
      refine ⟨hc, ?_⟩
      have hne2 : ¬ (a = x ∧ b = y) := by
        intro hab
        exact hne (by rw [hab.1, hab.2])
      rw [if_neg hne2]
      exact hv
  rw [cnt, hset, Finset.card_erase_of_mem hmem]
  have : 0 < ((gridCells w h).filter (fun p => f p.1 p.2 ≠ 0)).card :=
    Finset.card_pos.mpr ⟨(x, y), hmem⟩
  unfold cnt
  omega

/-- One scan preserves the area, preserves the sum of frontier length and
non-zero cell count, and only appends in-bounds entries to the frontier. -/
theorem bfsScan_measure (cid : ℤ) (scale maxDist : ℚ) (cd : ℕ) (w h : ℕ) :
    ∀ (ps : List (ℕ × ℕ)) (st : BFSState), (∀ q ∈ ps, inB w h q) →
      (ps.foldl (bfsClaim cid scale maxDist cd) st).area = st.area ∧
      (ps.foldl (bfsClaim cid scale maxDist cd) st).queue.length
          + cnt w h (ps.foldl (bfsClaim cid scale maxDist cd) st).img
        = st.queue.length + cnt w h st.img ∧
      ∃ L, (ps.foldl (bfsClaim cid scale maxDist cd) st).queue = st.queue ++ L ∧
        ∀ e ∈ L, inB w h (qpos e) := by
  intro ps
  induction ps with
  | nil => exact fun st _ => ⟨rfl, rfl, [], by simp, by simp⟩
  | cons q ps ih =>
    intro st hin
    have hq : inB w h q := hin q (List.mem_cons_self q ps)
    have hps : ∀ r ∈ ps, inB w h r := fun r hr => hin r (List.mem_cons_of_mem q hr)
    rw [List.foldl_cons]
    by_cases hskip : skipPixel scale maxDist cd (st.img q.1 q.2)
    · rw [bfsClaim_of_skip hskip]
      exact ih st hps
    · rw [bfsClaim_of_claim hskip]
      obtain ⟨ha, hm, L, hL, hLin⟩ := ih _ hps
      have hnz : st.img q.1 q.2 ≠ 0 := fun h0 => hskip (Or.inl h0)
      have hcnt : cnt w h (updImg st.img q.1 q.2 0) + 1 = cnt w h st.img :=
        cnt_updImg_zero hq hnz
      refine ⟨ha, ?_, (q.1, q.2, st.img q.1 q.2) :: L, ?_, ?_⟩
      · simp only [List.length_append, List.length_cons, List.length_nil] at hm ⊢
        omega
      · rw [hL]
        simp
      · intro e he
        rcases List.mem_cons.mp he with rfl | heL
        · exact hq
        · exact hLin e heL

/-- The pop loop of `img_BFS` completes within `1 + (frontier length) +
(non-zero cell count)` iterations: each pushed cell is zeroed at the moment
it is pushed, so every cell enters the frontier at most once. -/
theorem bfsLoop_total (cid : ℤ) (scale maxDist : ℚ) (w h m : ℕ) :
    ∀ (fuel : ℕ) (c : ℕ × ℕ × ℕ) (st : BFSState), inB w h (qpos c) →
      (∀ e ∈ st.queue, inB w h (qpos e)) →
      1 + st.queue.length + cnt w h st.img ≤ fuel →
      (bfsLoop cid scale maxDist w h m fuel c st).isSome := by
  intro fuel
  induction fuel with
  | zero => exact fun c st _ _ hf => absurd hf (by omega)
  | succ n ih =>
    intro c st hc hq hf
    have hw : 0 < w := by
      have := hc.1
      omega
    have hh : 0 < h := by
      have := hc.2
      omega
    have hps : ∀ q ∈ scanPositions w h c.1 c.2.1 m, inB w h q := by
      intro q hmem
      have := (mem_scanPositions hw hh).mp hmem
      exact ⟨this.1, this.2.1⟩
    obtain ⟨ha, hm2, L, hL, hLin⟩ :=
      bfsScan_measure cid scale maxDist c.2.2 w h (scanPositions w h c.1 c.2.1 m)
        { st with area := st.area + 1 } hps
    rw [bfsLoop]
    simp only [bfsScan] at ha hm2 hL ⊢
    rcases hq2 : (List.foldl (bfsClaim cid scale maxDist c.2.2)
        { st with area := st.area + 1 } (scanPositions w h c.1 c.2.1 m)).queue with _ | ⟨e, rest⟩
    · simp
    · apply ih
      · rw [hq2] at hL
        rcases List.append_eq_cons_iff.mp hL.symm with ⟨hnil, hLe⟩ | ⟨pre, hpre, hLrest⟩
        · have he : e ∈ L := by
            rw [hLe]
            exact List.mem_cons_self e rest
          exact hLin e he
        · have he : e ∈ st.queue := by
            rw [hpre]
            exact List.mem_cons_self e pre
          exact hq e he
      · intro e2 he2
        have : e2 ∈ st.queue ++ L := by
          rw [← hL, hq2]
          exact List.mem_cons_of_mem e he2
        rcases List.mem_append.mp this with h1 | h2
        · exact hq e2 h1
        · exact hLin e2 h2
      · rw [hq2] at hm2
        simp only [List.length_cons] at hm2
        have hgoal : 1 + rest.length + cnt w h (List.foldl (bfsClaim cid scale maxDist c.2.2)
            { img := st.img, cmap := st.cmap, queue := st.queue, area := st.area + 1 }
            (scanPositions w h c.1 c.2.1 m)).img ≤ n := by omega
        exact hgoal

/-- Totality of one region-growing pass: fuel `w * h + 1` always
suffices. -/
theorem img_BFS_total (x y : ℕ) (cid : ℤ) (f : Img) (c : CMap)
    (scale maxDist : ℚ) (m w h : ℕ) (hx : x < w) (hy : y < h) :
    (img_BFS x y cid f c scale maxDist m w h (w * h + 1)).isSome := by
  unfold img_BFS
  rw [Option.isSome_map']
  apply bfsLoop_total
  · exact ⟨hx, hy⟩
  · intro e he
    simp at he
  · have := cnt_le w h f
    simp only [List.length_nil]
    omega

/-- Claim C10: for every grid and every in-bounds seed, `img_BFS`
terminates: a cell is pushed onto the frontier only while non-zero in the
working copy and is zeroed at that moment, so each cell is pushed at most
once and the pop loop runs at most `1 + w * h` iterations — the fuel
`w * h + 1` always suffices. -/
theorem img_BFS_terminates (x y : ℕ) (cid : ℤ) (f : Img) (c : CMap)
    (scale maxDist : ℚ) (m w h : ℕ) (hx : x < w) (hy : y < h) :
    (img_BFS x y cid f c scale maxDist m w h (w * h + 1)).isSome :=
  img_BFS_total x y cid f c scale maxDist m w h hx hy

/-- Witness for C10: the pass seeded at the single pixel of the 1×1 grid
completes with fuel 2. -/
theorem img_BFS_terminates_witness :
    (0 < 1 ∧ 0 < 1) ∧
      (img_BFS 0 0 0 singlePixelGrid (fun _ _ => 0) 1 1 1 1 1 (1 * 1 + 1)).isSome :=
  ⟨⟨Nat.one_pos, Nat.one_pos⟩,
    img_BFS_terminates 0 0 0 singlePixelGrid (fun _ _ => 0) 1 1 1 1 1 Nat.one_pos Nat.one_pos⟩

/-- One scan claims exactly the not-yet-claimed candidate cells among the
scanned positions: the working copy and cluster map afterwards represent
the enlarged claimed set, every new frontier entry is a claimed candidate
carrying its base depth, every unclaimed candidate position gets a frontier
entry, and old entries persist. -/
theorem bfsScan_rep (cid : ℤ) (scale maxDist : ℚ) (w h : ℕ) (f₀ : Img) (c₀ : CMap) (cd : ℕ) :
    ∀ (ps : List (ℕ × ℕ)) (st : BFSState) (K : Set (ℕ × ℕ)),
      RepI f₀ K st.img → RepC c₀ cid K st.cmap →
      RepI f₀ (K ∪ {q | q ∈ ps ∧ cand scale maxDist f₀ cd q})
          (ps.foldl (bfsClaim cid scale maxDist cd) st).img ∧
        RepC c₀ cid (K ∪ {q | q ∈ ps ∧ cand scale maxDist f₀ cd q})
          (ps.foldl (bfsClaim cid scale maxDist cd) st).cmap ∧
        (∀ e ∈ (ps.foldl (bfsClaim cid scale maxDist cd) st).queue,
          e ∈ st.queue ∨
            (qpos e ∈ {q | q ∈ ps ∧ cand scale maxDist f₀ cd q} ∧ e.2.2 = f₀ e.1 e.2.1)) ∧
        (∀ q, q ∈ ps → cand scale maxDist f₀ cd q → q ∉ K →
          ∃ e ∈ (ps.foldl (bfsClaim cid scale maxDist cd) st).queue, qpos e = q) ∧
        (∀ e ∈ st.queue, e ∈ (ps.foldl (bfsClaim cid scale maxDist cd) st).queue) := by
  intro ps
  induction ps with
  | nil =>
    intro st K h1 h2
    refine ⟨?_, ?_, fun e he => Or.inl he, fun q hq => absurd hq (List.not_mem_nil q),
      fun e he => he⟩
    · have : K ∪ {q : ℕ × ℕ | q ∈ ([] : List (ℕ × ℕ)) ∧ cand scale maxDist f₀ cd q} = K := by
        ext p
        simp [List.not_mem_nil]
      rw [this]
      exact h1
    · have : K ∪ {q : ℕ × ℕ | q ∈ ([] : List (ℕ × ℕ)) ∧ cand scale maxDist f₀ cd q} = K := by
        ext p
        simp [List.not_mem_nil]
      rw [this]
      exact h2
  | cons q ps ih =>
    intro st K h1 h2
    rw [List.foldl_cons]
    by_cases hskip : skipPixel scale maxDist cd (st.img q.1 q.2)
    · rw [bfsClaim_of_skip hskip]
      have hset : K ∪ {r : ℕ × ℕ | r ∈ q :: ps ∧ cand scale maxDist f₀ cd r}
          = K ∪ {r : ℕ × ℕ | r ∈ ps ∧ cand scale maxDist f₀ cd r} := by
        ext p
        simp only [Set.mem_union, Set.mem_setOf_eq, List.mem_cons]
        constructor
        · rintro (hK | ⟨(rfl | hp), hcand⟩)
          · exact Or.inl hK
          · by_cases hK : p ∈ K
            · exact Or.inl hK
            · exfalso
              have hval : st.img p.1 p.2 = f₀ p.1 p.2 := h1.2 p hK
              rcases hskip with h0 | hgt
              · exact hcand.1 (hval ▸ h0)
              · exact hcand.2 (hval ▸ hgt)
          · exact Or.inr ⟨hp, hcand⟩
        · rintro (hK | ⟨hp, hcand⟩)
          · exact Or.inl hK
          · exact Or.inr ⟨Or.inr hp, hcand⟩
      rw [hset]
      obtain ⟨g1, g2, g3, g4, g5⟩ := ih st K h1 h2
      refine ⟨g1, g2, ?_, ?_, g5⟩
      · intro e he
        rcases g3 e he with h | ⟨hq', hd⟩
        · exact Or.inl h
        · exact Or.inr ⟨⟨List.mem_cons_of_mem q hq'.1, hq'.2⟩, hd⟩
      · intro r hr hcand hK
        rcases List.mem_cons.mp hr with rfl | hrp
        · exfalso
          have hval : st.img r.1 r.2 = f₀ r.1 r.2 := h1.2 r hK
          rcases hskip with h0 | hgt
          · exact hcand.1 (hval ▸ h0)
          · exact hcand.2 (hval ▸ hgt)
        · exact g4 r hrp hcand hK
    · rw [bfsClaim_of_claim hskip]
      have hKq : q ∉ K := by
        intro hq
        exact hskip (Or.inl (h1.1 q hq))
      have hval : st.img q.1 q.2 = f₀ q.1 q.2 := h1.2 q hKq
      have hcand : cand scale maxDist f₀ cd q := by
        unfold skipPixel at hskip
        push_neg at hskip
        exact ⟨hval ▸ hskip.1, not_lt.mpr (hval ▸ hskip.2)⟩
      have h1' : RepI f₀ (K ∪ {q}) (updImg st.img q.1 q.2 0) := by
        constructor
        · intro p hp
          rcases hp with hpK | hpq2
          · by_cases hpq : p.1 = q.1 ∧ p.2 = q.2
            · rw [updImg, if_pos hpq]
            · rw [updImg_other _ _ _ _ _ _ hpq]
              exact h1.1 p hpK
          · have hpe : p = q := hpq2
            rw [hpe]
            exact updImg_self st.img q.1 q.2 0
        · intro p hp
          have hpq : ¬ (p.1 = q.1 ∧ p.2 = q.2) := by
            intro hc
            apply hp
            right
            show p = q
            obtain ⟨a, b⟩ := p
            obtain ⟨a', b'⟩ := q
            simp only at hc
            rw [hc.1, hc.2]
          rw [updImg_other _ _ _ _ _ _ hpq]
          exact h1.2 p (fun hK => hp (Or.inl hK))
      have h2' : RepC c₀ cid (K ∪ {q}) (updCMap st.cmap q.1 q.2 cid) := by
        constructor
        · intro p hp
          rcases hp with hpK | hpq2
          · by_cases hpq : p.1 = q.1 ∧ p.2 = q.2
            · rw [updCMap, if_pos hpq]
            · rw [updCMap]
              rw [if_neg hpq]
              exact h2.1 p hpK
          · have hpe : p = q := hpq2
            rw [hpe, updCMap]
            simp
        · intro p hp
          have hpq : ¬ (p.1 = q.1 ∧ p.2 = q.2) := by
            intro hc
            apply hp
            right
            show p = q
            obtain ⟨a, b⟩ := p
            obtain ⟨a', b'⟩ := q
            simp only at hc
            rw [hc.1, hc.2]
          rw [updCMap, if_neg hpq]
          exact h2.2 p (fun hK => hp (Or.inl hK))
      obtain ⟨g1, g2, g3, g4, g5⟩ := ih
        { img := updImg st.img q.1 q.2 0
          cmap := updCMap st.cmap q.1 q.2 cid
          queue := st.queue ++ [(q.1, q.2, st.img q.1 q.2)]
          area := st.area } (K ∪ {q}) h1' h2'
      have hset : K ∪ {q} ∪ {r : ℕ × ℕ | r ∈ ps ∧ cand scale maxDist f₀ cd r}
          = K ∪ {r : ℕ × ℕ | r ∈ q :: ps ∧ cand scale maxDist f₀ cd r} := by
        ext p
        simp only [Set.mem_union, Set.mem_setOf_eq, List.mem_cons, Set.mem_singleton_iff]
        constructor
        · rintro ((hK | rfl) | ⟨hp, hc⟩)
          · exact Or.inl hK
          · exact Or.inr ⟨Or.inl rfl, hcand⟩
          · exact Or.inr ⟨Or.inr hp, hc⟩
        · rintro (hK | ⟨(rfl | hp), hc⟩)
          · exact Or.inl (Or.inl hK)
          · exact Or.inl (Or.inr rfl)
          · exact Or.inr ⟨hp, hc⟩
      rw [hset] at g1 g2
      refine ⟨g1, g2, ?_, ?_, ?_⟩
      · intro e he
        rcases g3 e he with hold | ⟨hq', hd⟩
        · rcases List.mem_append.mp hold with h | h
          · exact Or.inl h
          · have he2 : e = (q.1, q.2, st.img q.1 q.2) := by
              simpa using h
            subst he2
            exact Or.inr ⟨⟨List.mem_cons_self q ps, hcand⟩, hval⟩
        · exact Or.inr ⟨⟨List.mem_cons_of_mem q hq'.1, hq'.2⟩, hd⟩
      · intro r hr hc hK
        rcases List.mem_cons.mp hr with rfl | hrp
        · refine ⟨(r.1, r.2, st.img r.1 r.2), ?_, rfl⟩
          apply g5
          simp
        · by_cases hrq : r = q
          · subst hrq
            refine ⟨(r.1, r.2, st.img r.1 r.2), ?_, rfl⟩
            apply g5
            simp
          · exact g4 r hrp hc (by
              intro hmem
              rcases hmem with hK' | hq'
              · exact hK hK'
              · exact hrq hq')
      · intro e he
        apply g5
        exact List.mem_append_left _ he

theorem reach_mem {w h m : ℕ} {scale maxDist : ℚ} {f₀ : Img} {s p : ℕ × ℕ}
    (hs : inB w h s ∧ f₀ s.1 s.2 ≠ 0) (hr : reach w h m scale maxDist f₀ s p) :
    inB w h p ∧ f₀ p.1 p.2 ≠ 0 := by
  induction hr with
  | refl => exact hs
  | tail hab hbc ih => exact ⟨hbc.2.1, hbc.2.2.2.1⟩

theorem reach_closed {w h m : ℕ} {scale maxDist : ℚ} {f₀ : Img} {s : ℕ × ℕ}
    {K : Set (ℕ × ℕ)} (hsK : s ∈ K)
    (hcl : ∀ p ∈ K, ∀ q, gridEdge w h m scale maxDist f₀ p q → q ∈ K) :
    ∀ p, reach w h m scale maxDist f₀ s p → p ∈ K := by
  intro p hr
  induction hr with
  | refl => exact hsK
  | tail hab hbc ih => exact hcl _ ih _ hbc

theorem scanClaims_eq_edgeSet (w h m : ℕ) (scale maxDist : ℚ) (f₀ : Img) (cx cy : ℕ)
    (hin : inB w h (cx, cy)) (hnz : f₀ cx cy ≠ 0) :
    {q : ℕ × ℕ | q ∈ scanPositions w h cx cy m ∧ cand scale maxDist f₀ (f₀ cx cy) q}
      = {q : ℕ × ℕ | gridEdge w h m scale maxDist f₀ (cx, cy) q} := by
  have hw : 0 < w := by
    have := hin.1
    omega
  have hh : 0 < h := by
    have := hin.2
    omega
  ext q
  simp only [Set.mem_setOf_eq, mem_scanPositions hw hh]
  constructor
  · rintro ⟨⟨hq1, hq2, hq3⟩, hc1, hc2⟩
    exact ⟨hin, ⟨hq1, hq2⟩, hnz, hc1, hq3, hc2⟩
  · rintro ⟨_, hqin, _, hqnz, hdist, hgate⟩
    exact ⟨⟨hqin.1, hqin.2, hdist⟩, hqnz, hgate⟩

/-- The pop loop grows the claimed set to exactly the depth-continuity
region reachable from the seed: when it returns, the working copy is the
base grid zeroed on the reachable region, the cluster map labels exactly
that region, the frontier is empty, and the recorded area exceeds by
`1 + initial frontier length + 1` the number of cells claimed during the
run. -/
theorem bfsLoop_char (cid : ℤ) (scale maxDist : ℚ) (w h m : ℕ) (f₀ : Img) (c₀ : CMap)
    (s : ℕ × ℕ) :
    ∀ (fuel : ℕ) (c : ℕ × ℕ × ℕ) (st : BFSState) (K : Set (ℕ × ℕ)) (st' : BFSState),
      bfsLoop cid scale maxDist w h m fuel c st = some st' →
      RepI f₀ K st.img → RepC c₀ cid K st.cmap → QInv w h f₀ K st.queue →
      qpos c ∈ K → c.2.2 = f₀ c.1 c.2.1 →
      (∀ p ∈ K, inB w h p ∧ f₀ p.1 p.2 ≠ 0) →
      s ∈ K →
      (∀ p ∈ K, reach w h m scale maxDist f₀ s p) →
      (∀ p ∈ K, (∃ e ∈ st.queue, qpos e = p) ∨ p = qpos c ∨
        (∀ q, gridEdge w h m scale maxDist f₀ p q → q ∈ K)) →
      RepI f₀ {p | reach w h m scale maxDist f₀ s p} st'.img ∧
        RepC c₀ cid {p | reach w h m scale maxDist f₀ s p} st'.cmap ∧
        st'.queue = [] ∧
        st'.area + cnt w h st'.img = st.area + 1 + st.queue.length + cnt w h st.img := by
  intro fuel
  induction fuel with
  | zero =>
    intro c st K st' hrun
    exact absurd hrun (by simp [bfsLoop])
  | succ n ih =>
    intro c st K st' hrun h1 h2 hq hcK hcd hKsub hsK hKreach hclosed
    have hcin : inB w h (qpos c) := (hKsub _ hcK).1
    have hcnz : f₀ c.1 c.2.1 ≠ 0 := (hKsub _ hcK).2
    have hw : 0 < w := by
      have := hcin.1
      omega
    have hh : 0 < h := by
      have := hcin.2
      omega
    have h1a : RepI f₀ K ({ st with area := st.area + 1 } : BFSState).img := h1
    have h2a : RepC c₀ cid K ({ st with area := st.area + 1 } : BFSState).cmap := h2
    obtain ⟨g1, g2, g3, g4, g5⟩ := bfsScan_rep cid scale maxDist w h f₀ c₀ c.2.2
      (scanPositions w h c.1 c.2.1 m) { st with area := st.area + 1 } K h1a h2a
    obtain ⟨ha, hm2, L, hL, hLin⟩ := bfsScan_measure cid scale maxDist c.2.2 w h
      (scanPositions w h c.1 c.2.1 m) { st with area := st.area + 1 }
      (fun q hmem => by
        have := (mem_scanPositions hw hh).mp hmem
        exact ⟨this.1, this.2.1⟩)
    simp only [bfsLoop, bfsScan] at hrun
    set F : BFSState := (scanPositions w h c.1 c.2.1 m).foldl
      (bfsClaim cid scale maxDist c.2.2) { st with area := st.area + 1 } with hFdef
    have hNbr : {q : ℕ × ℕ | q ∈ scanPositions w h c.1 c.2.1 m ∧
        cand scale maxDist f₀ c.2.2 q}
        = {q : ℕ × ℕ | gridEdge w h m scale maxDist f₀ (c.1, c.2.1) q} := by
      rw [hcd]
      exact scanClaims_eq_edgeSet w h m scale maxDist f₀ c.1 c.2.1 hcin hcnz
    set K2 : Set (ℕ × ℕ) :=
      K ∪ {q : ℕ × ℕ | gridEdge w h m scale maxDist f₀ (c.1, c.2.1) q} with hK2def
    rw [hNbr] at g1 g2
    have hK2sub : ∀ p ∈ K2, inB w h p ∧ f₀ p.1 p.2 ≠ 0 := by
      intro p hp
      rcases hp with hp | hp
      · exact hKsub p hp
      · exact ⟨hp.2.1, hp.2.2.2.1⟩
    have hK2reach : ∀ p ∈ K2, reach w h m scale maxDist f₀ s p := by
      intro p hp
      rcases hp with hp | hp
      · exact hKreach p hp
      · exact Relation.ReflTransGen.tail (hKreach _ hcK) hp
    have hsK2 : s ∈ K2 := Or.inl hsK
    have hQ2 : QInv w h f₀ K2 F.queue := by
      intro e he
      rcases g3 e he with hold | ⟨hnew, hd⟩
      · obtain ⟨heK, hed, hein⟩ := hq e hold
        exact ⟨Or.inl heK, hed, hein⟩
      · rw [hNbr] at hnew
        refine ⟨Or.inr hnew, hd, ?_⟩
        exact ⟨hnew.2.1.1, hnew.2.1.2⟩
    have ha2 : F.area = st.area + 1 := ha
    have hm3 : F.queue.length + cnt w h F.img = st.queue.length + cnt w h st.img := hm2
    rcases hq2 : F.queue with _ | ⟨e, rest⟩
    · -- the frontier emptied: the claimed set is closed, hence equals the region
      rw [hq2] at hrun
      have hst' : st' = F := (Option.some.inj hrun).symm
      have hcl2 : ∀ p ∈ K2, ∀ q, gridEdge w h m scale maxDist f₀ p q → q ∈ K2 := by
        intro p hp q hedge
        by_cases hpK : p ∈ K
        · rcases hclosed p hpK with ⟨e2, he2, hpe⟩ | hpc | hpcl
          · exfalso
            have hmem := g5 e2 he2
            rw [hq2] at hmem
            exact absurd hmem (List.not_mem_nil e2)
          · right
            show gridEdge w h m scale maxDist f₀ (c.1, c.2.1) q
            have hpc2 : p = (c.1, c.2.1) := hpc
            rw [← hpc2]
            exact hedge
          · exact Or.inl (hpcl q hedge)
        · rcases hp with hpK2 | hpN
          · exact absurd hpK2 hpK
          · exfalso
            rw [← hNbr] at hpN
            obtain ⟨e2, he2, _⟩ := g4 p hpN.1 hpN.2 hpK
            rw [hq2] at he2
            exact absurd he2 (List.not_mem_nil e2)
      have hreachK2 : {p : ℕ × ℕ | reach w h m scale maxDist f₀ s p} = K2 := by
        ext p
        constructor
        · exact fun hr => reach_closed hsK2 hcl2 p hr
        · exact fun hp => hK2reach p hp
      refine ⟨?_, ?_, by rw [hst', hq2], ?_⟩
      · rw [hreachK2, hst']
        exact g1
      · rw [hreachK2, hst']
        exact g2
      · rw [hq2] at hm3
        simp only [List.length_nil] at hm3
        rw [hst']
        omega
    · -- pop the next frontier entry and recurse
      rw [hq2] at hrun
      have hrun2 : bfsLoop cid scale maxDist w h m n e { F with queue := rest }
          = some st' := hrun
      have heq : e ∈ F.queue := by
        rw [hq2]
        exact List.mem_cons_self e rest
      obtain ⟨heK2, hed, hein⟩ := hQ2 e heq
      have hq' : QInv w h f₀ K2 rest := by
        intro e2 he2
        apply hQ2
        rw [hq2]
        exact List.mem_cons_of_mem e he2
      have hclosed' : ∀ p ∈ K2, (∃ e2 ∈ rest, qpos e2 = p) ∨ p = qpos e ∨
          (∀ q, gridEdge w h m scale maxDist f₀ p q → q ∈ K2) := by
        intro p hp
        by_cases hpK : p ∈ K
        · rcases hclosed p hpK with ⟨e2, he2, hpe⟩ | hpc | hpcl
          · have hmem := g5 e2 he2
            rw [hq2] at hmem
            rcases List.mem_cons.mp hmem with rfl | hrest
            · exact Or.inr (Or.inl hpe.symm)
            · exact Or.inl ⟨e2, hrest, hpe⟩
          · refine Or.inr (Or.inr ?_)
            intro q hedge
            right
            show gridEdge w h m scale maxDist f₀ (c.1, c.2.1) q
            have hpc2 : p = (c.1, c.2.1) := hpc
            rw [← hpc2]
            exact hedge
          · exact Or.inr (Or.inr (fun q hedge => Or.inl (hpcl q hedge)))
        · rcases hp with hpK2 | hpN
          · exact absurd hpK2 hpK
          · have hpN2 := hpN
            rw [← hNbr] at hpN2
            obtain ⟨e2, he2, hpe⟩ := g4 p hpN2.1 hpN2.2 hpK
            rw [hq2] at he2
            rcases List.mem_cons.mp he2 with rfl | hrest
            · exact Or.inr (Or.inl hpe.symm)
            · exact Or.inl ⟨e2, hrest, hpe⟩
      obtain ⟨r1, r2, r3, r4⟩ := ih e { F with queue := rest } K2 st' hrun2 g1 g2 hq'
        heK2 hed hK2sub hsK2 hK2reach hclosed'
      refine ⟨r1, r2, r3, ?_⟩
      have r4' : st'.area + cnt w h st'.img = F.area + 1 + rest.length + cnt w h F.img := r4
      rw [hq2] at hm3
      simp only [List.length_cons] at hm3
      omega

/-- One region-growing pass claims exactly the depth-continuity region of
its seed: the returned working copy is the input zeroed on the region
reachable from the seed, the returned cluster map labels exactly that
region with the pass id, and the returned area equals 2 plus the number of
claimed cells. -/
theorem img_BFS_char (x y : ℕ) (cid : ℤ) (f : Img) (c₀ : CMap) (scale maxDist : ℚ)
    (m w h fuel : ℕ) (a : ℕ) (f' : Img) (cm' : CMap)
    (hx : x < w) (hy : y < h) (hnz : f x y ≠ 0) (hmd : 0 ≤ maxDist)
    (hrun : img_BFS x y cid f c₀ scale maxDist m w h fuel = some (a, f', cm')) :
    RepI f {p | reach w h m scale maxDist f (x, y) p} f' ∧
      RepC c₀ cid {p | reach w h m scale maxDist f (x, y) p} cm' ∧
      a + cnt w h f' = 2 + cnt w h f := by
  rw [img_BFS, Option.map_eq_some'] at hrun
  obtain ⟨st1, hloop, htup⟩ := hrun
  have hta : st1.area = a := congrArg Prod.fst htup
  have hti : st1.img = f' := congrArg Prod.fst (congrArg Prod.snd htup)
  have htc : st1.cmap = cm' := congrArg Prod.snd (congrArg Prod.snd htup)
  cases fuel with
  | zero => exact absurd hloop (by simp [bfsLoop])
  | succ n =>
    have h1 : RepI f (∅ : Set (ℕ × ℕ))
        ({ img := f, cmap := c₀, queue := [], area := 1 + 1 } : BFSState).img :=
      ⟨fun p hp => absurd hp (Set.not_mem_empty p), fun p _ => rfl⟩
    have h2 : RepC c₀ cid (∅ : Set (ℕ × ℕ))
        ({ img := f, cmap := c₀, queue := [], area := 1 + 1 } : BFSState).cmap :=
      ⟨fun p hp => absurd hp (Set.not_mem_empty p), fun p _ => rfl⟩
    obtain ⟨g1, g2, g3, g4, g5⟩ := bfsScan_rep cid scale maxDist w h f c₀ (f x y)
      (scanPositions w h x y m) { img := f, cmap := c₀, queue := [], area := 1 + 1 } ∅ h1 h2
    obtain ⟨ha, hm2, L, hL, hLin⟩ := bfsScan_measure cid scale maxDist (f x y) w h
      (scanPositions w h x y m) { img := f, cmap := c₀, queue := [], area := 1 + 1 }
      (fun q hmem => by
        have := (mem_scanPositions (by omega) (by omega)).mp hmem
        exact ⟨this.1, this.2.1⟩)
    simp only [bfsLoop, bfsScan] at hloop
    set F : BFSState := (scanPositions w h x y m).foldl
      (bfsClaim cid scale maxDist (f x y))
      { img := f, cmap := c₀, queue := [], area := 1 + 1 } with hFdef
    have hN : {q : ℕ × ℕ | q ∈ scanPositions w h x y m ∧ cand scale maxDist f (f x y) q}
        = {q : ℕ × ℕ | gridEdge w h m scale maxDist f (x, y) q} :=
      scanClaims_eq_edgeSet w h m scale maxDist f x y ⟨hx, hy⟩ hnz
    have hgate : ¬ maxDist < (Nat.dist (f x y) (f x y) : ℚ) * scale := by
      simp only [Nat.dist_self, Nat.cast_zero, zero_mul]
      exact not_lt.mpr hmd
    have hsN : (x, y) ∈ {q : ℕ × ℕ | gridEdge w h m scale maxDist f (x, y) q} := by
      refine ⟨⟨hx, hy⟩, ⟨hx, hy⟩, hnz, hnz, ?_, hgate⟩
      simp [Nat.dist_self]
    have hsscan : (x, y) ∈ scanPositions w h x y m := by
      rw [mem_scanPositions (by omega) (by omega)]
      simp [Nat.dist_self, hx, hy]
    have hscand : cand scale maxDist f (f x y) (x, y) := ⟨hnz, hgate⟩
    rw [Set.empty_union, hN] at g1 g2
    rcases hq2 : F.queue with _ | ⟨e, rest⟩
    · exfalso
      obtain ⟨e2, he2, _⟩ := g4 (x, y) hsscan hscand (Set.not_mem_empty (x, y))
      rw [hq2] at he2
      exact absurd he2 (List.not_mem_nil e2)
    · rw [hq2] at hloop
      have hloop2 : bfsLoop cid scale maxDist w h m n e { F with queue := rest }
          = some st1 := hloop
      have hQF : QInv w h f {q : ℕ × ℕ | gridEdge w h m scale maxDist f (x, y) q} F.queue := by
        intro e2 he2
        rcases g3 e2 he2 with hold | ⟨hnew, hd⟩
        · exact absurd hold (List.not_mem_nil e2)
        · rw [hN] at hnew
          exact ⟨hnew, hd, hnew.2.1⟩
      obtain ⟨heN, hed, hein⟩ := hQF e (by
        rw [hq2]
        exact List.mem_cons_self e rest)
      obtain ⟨r1, r2, r3, r4⟩ := bfsLoop_char cid scale maxDist w h m f c₀ (x, y) n e
        { F with queue := rest } {q : ℕ × ℕ | gridEdge w h m scale maxDist f (x, y) q} st1
        hloop2 g1 g2
        (fun e2 he2 => hQF e2 (by
          rw [hq2]
          exact List.mem_cons_of_mem e he2))
        heN hed
        (fun p hp => ⟨hp.2.1, hp.2.2.2.1⟩)
        hsN
        (fun p hp => Relation.ReflTransGen.single hp)
        (by
          intro p hp
          have hp2 := hp
          rw [← hN] at hp2
          obtain ⟨e2, he2, hpe⟩ := g4 p hp2.1 hp2.2 (Set.not_mem_empty p)
          rw [hq2] at he2
          rcases List.mem_cons.mp he2 with rfl | hrest
          · exact Or.inr (Or.inl hpe.symm)
          · exact Or.inl ⟨e2, hrest, hpe⟩)
      rw [hti] at r1
      rw [htc] at r2
      refine ⟨r1, r2, ?_⟩
      have r4' : st1.area + cnt w h st1.img = F.area + 1 + rest.length + cnt w h F.img := r4
      have ha2 : F.area = 1 + 1 := ha
      have hm3 : F.queue.length + cnt w h F.img = 0 + cnt w h f := hm2
      rw [hq2] at hm3
      simp only [List.length_cons] at hm3
      rw [hta, hti] at r4'
      omega

theorem SegInv.current_nonneg {scale maxDist : ℚ} {m w h : ℕ} {g : Img} {st : SegState}
    (hinv : SegInv scale maxDist m w h g st) : 0 ≤ st.current_ind := by
  rcases hinv.largest with ⟨h0, _, _⟩ | ⟨_, h2, _⟩
  · omega
  · omega

theorem gridEdge_of_submask {w h m : ℕ} {scale maxDist : ℚ} {f g : Img}
    (hsub : ∀ a b : ℕ, f a b ≠ 0 → f a b = g a b) {p q : ℕ × ℕ}
    (he : gridEdge w h m scale maxDist f p q) : gridEdge w h m scale maxDist g p q := by
  obtain ⟨h1, h2, h3, h4, h5, h6⟩ := he
  have hpv := hsub p.1 p.2 h3
  have hqv := hsub q.1 q.2 h4
  rw [hpv] at h3 h6
  rw [hqv] at h4 h6
  exact ⟨h1, h2, h3, h4, h5, h6⟩

theorem segStep_skip {scale maxDist : ℚ} {m w h : ℕ} {st : SegState} {p : ℕ × ℕ}
    (hz : st.mask p.1 p.2 = 0) : segStep scale maxDist m w h (some st) p = some st := by
  simp [segStep, hz]


/-- A completed region-growing pass preserves the segmentation invariant:
the new cluster is internally connected, carries the fresh id, old clusters
are untouched, and the largest-cluster bookkeeping continues to record the
first id of maximum area (recorded area = cell count + 2). -/
theorem segPass_inv (scale maxDist : ℚ) (m w h : ℕ) (g : Img) (st stN : SegState)
    (p : ℕ × ℕ) (a : ℕ)
    (hp : inB w h p) (hmask : st.mask p.1 p.2 ≠ 0) (hmd : 0 ≤ maxDist)
    (hinv : SegInv scale maxDist m w h g st)
    (hr : img_BFS p.1 p.2 st.current_ind st.mask st.cmap scale maxDist m w h (w * h + 1)
      = some (a, stN.mask, stN.cmap))
    (hli : stN.largest_ind = if st.largest_area < a then st.current_ind else st.largest_ind)
    (hla : stN.largest_area = if st.largest_area < a then a else st.largest_area)
    (hci : stN.current_ind = st.current_ind + 1) :
    SegInv scale maxDist m w h g stN ∧
      (∀ a2 b2 : ℕ, st.mask a2 b2 = 0 → stN.mask a2 b2 = 0) ∧
      stN.mask p.1 p.2 = 0 := by
  obtain ⟨hRepI, hRepC, harea⟩ := img_BFS_char p.1 p.2 st.current_ind st.mask st.cmap
    scale maxDist m w h (w * h + 1) a stN.mask stN.cmap hp.1 hp.2 hmask hmd hr
  set n : ℤ := st.current_ind with hndef
  set R : Set (ℕ × ℕ) := {q | reach w h m scale maxDist st.mask (p.1, p.2) q} with hRdef
  have hmg : ∀ a2 b2 : ℕ, st.mask a2 b2 ≠ 0 → st.mask a2 b2 = g a2 b2 := by
    intro a2 b2 hnz
    rcases hinv.maskRep (a2, b2) with heq | ⟨_, _, hz⟩
    · exact heq
    · exact absurd hz hnz
  have hRsub : ∀ q ∈ R, inB w h q ∧ st.mask q.1 q.2 ≠ 0 :=
    fun q hq => reach_mem ⟨hp, hmask⟩ hq
  have hgR : ∀ q ∈ R, g q.1 q.2 ≠ 0 := by
    intro q hq
    have h2 := (hRsub q hq).2
    rw [hmg q.1 q.2 h2] at h2
    exact h2
  have hpR : p ∈ R := by
    show reach w h m scale maxDist st.mask (p.1, p.2) p
    exact Relation.ReflTransGen.refl
  have hf'0 : ∀ q ∈ R, stN.mask q.1 q.2 = 0 := hRepI.1
  have hf'v : ∀ q ∉ R, stN.mask q.1 q.2 = st.mask q.1 q.2 := hRepI.2
  have hc'0 : ∀ q ∈ R, stN.cmap q.1 q.2 = n := hRepC.1
  have hc'v : ∀ q ∉ R, stN.cmap q.1 q.2 = st.cmap q.1 q.2 := hRepC.2
  have hnn : (0 : ℤ) ≤ n := hinv.current_nonneg
  have hmono : ∀ a2 b2 : ℕ, st.mask a2 b2 = 0 → stN.mask a2 b2 = 0 := by
    intro a2 b2 hz
    by_cases hqR : (a2, b2) ∈ R
    · exact hf'0 (a2, b2) hqR
    · rw [hf'v (a2, b2) hqR]
      exact hz
  have hClaimedIff : ∀ q : ℕ × ℕ, Claimed w h g stN q ↔ (Claimed w h g st q ∨ q ∈ R) := by
    intro q
    constructor
    · rintro ⟨hin, hgq, hz⟩
      by_cases hqR : q ∈ R
      · exact Or.inr hqR
      · refine Or.inl ⟨hin, hgq, ?_⟩
        rw [← hf'v q hqR]
        exact hz
    · rintro (⟨hin, hgq, hz⟩ | hqR)
      · have hqR : q ∉ R := fun hqR => (hRsub q hqR).2 hz
        refine ⟨hin, hgq, ?_⟩
        rw [hf'v q hqR]
        exact hz
      · exact ⟨(hRsub q hqR).1, hgR q hqR, hf'0 q hqR⟩
  have hclassEq : ∀ i : ℤ, i < n → classOf w h g stN i = classOf w h g st i := by
    intro i hi
    ext q
    simp only [classOf, Set.mem_setOf_eq]
    constructor
    · rintro ⟨hcl, hcm⟩
      by_cases hqR : q ∈ R
      · exfalso
        rw [hc'0 q hqR] at hcm
        omega
      · rw [hc'v q hqR] at hcm
        rcases (hClaimedIff q).mp hcl with hcs | hqR2
        · exact ⟨hcs, hcm⟩
        · exact absurd hqR2 hqR
    · rintro ⟨hcs, hcm⟩
      have hqR : q ∉ R := fun hqR => (hRsub q hqR).2 hcs.2.2
      refine ⟨(hClaimedIff q).mpr (Or.inl hcs), ?_⟩
      rw [hc'v q hqR]
      exact hcm
  have hclassNew : classOf w h g stN n = R := by
    ext q
    simp only [classOf, Set.mem_setOf_eq]
    constructor
    · rintro ⟨hcl, hcm⟩
      by_cases hqR : q ∈ R
      · exact hqR
      · exfalso
        rw [hc'v q hqR] at hcm
        rcases (hClaimedIff q).mp hcl with hcs | hqR2
        · have := hinv.cmapRange q hcs
          omega
        · exact hqR hqR2
    · intro hqR
      exact ⟨(hClaimedIff q).mpr (Or.inr hqR), hc'0 q hqR⟩
  have hclFinEq : ∀ i : ℤ, i < n → clFin w h g stN i = clFin w h g st i := by
    intro i hi
    ext q
    simp only [clFin, Finset.mem_filter, mem_gridCells]
    constructor
    · rintro ⟨hcell, hgq, hz, hcm⟩
      by_cases hqR : q ∈ R
      · exfalso
        rw [hc'0 q hqR] at hcm
        omega
      · rw [hc'v q hqR] at hcm
        rw [hf'v q hqR] at hz
        exact ⟨hcell, hgq, hz, hcm⟩
    · rintro ⟨hcell, hgq, hz, hcm⟩
      have hqR : q ∉ R := fun hqR => (hRsub q hqR).2 hz
      rw [← hf'v q hqR] at hz
      rw [← hc'v q hqR] at hcm
      exact ⟨hcell, hgq, hz, hcm⟩
  have hclFinNew : clFin w h g stN n
      = (gridCells w h).filter (fun q => st.mask q.1 q.2 ≠ 0 ∧ stN.mask q.1 q.2 = 0) := by
    ext q
    simp only [clFin, Finset.mem_filter, mem_gridCells]
    constructor
    · rintro ⟨hcell, hgq, hz, hcm⟩
      by_cases hqR : q ∈ R
      · exact ⟨hcell, (hRsub q hqR).2, hz⟩
      · exfalso
        rw [hc'v q hqR] at hcm
        have hmq : st.mask q.1 q.2 = 0 := by
          rw [← hf'v q hqR]
          exact hz
        have := hinv.cmapRange q ⟨⟨hcell.1, hcell.2⟩, hgq, hmq⟩
        omega
    · rintro ⟨hcell, hmq, hz⟩
      have hqR : q ∈ R := by
        by_contra hqR
        rw [hf'v q hqR] at hz
        exact hmq hz
      exact ⟨hcell, hgR q hqR, hz, hc'0 q hqR⟩
  have hacard : a = (clFin w h g stN n).card + 2 := by
    have hsplit : (((gridCells w h).filter (fun q => st.mask q.1 q.2 ≠ 0)).filter
          (fun q => stN.mask q.1 q.2 = 0)).card
        + (((gridCells w h).filter (fun q => st.mask q.1 q.2 ≠ 0)).filter
          (fun q => ¬ stN.mask q.1 q.2 = 0)).card
        = ((gridCells w h).filter (fun q => st.mask q.1 q.2 ≠ 0)).card :=
      Finset.filter_card_add_filter_neg_card_eq_card _
    rw [Finset.filter_filter, Finset.filter_filter] at hsplit
    have hB : (gridCells w h).filter (fun q => st.mask q.1 q.2 ≠ 0 ∧ ¬ stN.mask q.1 q.2 = 0)
        = (gridCells w h).filter (fun q => stN.mask q.1 q.2 ≠ 0) := by
      ext q
      simp only [Finset.mem_filter]
      constructor
      · rintro ⟨hcell, _, hnz⟩
        exact ⟨hcell, hnz⟩
      · rintro ⟨hcell, hnz⟩
        have hqR : q ∉ R := fun hqR => hnz (hf'0 q hqR)
        refine ⟨hcell, ?_, hnz⟩
        rw [← hf'v q hqR]
        exact hnz
    rw [hB] at hsplit
    rw [hclFinNew]
    have hcnt1 : ((gridCells w h).filter (fun q => stN.mask q.1 q.2 ≠ 0)).card
        = cnt w h stN.mask := rfl
    have hcnt2 : ((gridCells w h).filter (fun q => st.mask q.1 q.2 ≠ 0)).card
        = cnt w h st.mask := rfl
    omega
  have hage2 : 2 ≤ a := by omega
  refine ⟨⟨?_, ?_, ?_, ?_, ?_⟩, hmono, hf'0 p hpR⟩
  · -- maskRep
    intro q
    by_cases hqR : q ∈ R
    · exact Or.inr ⟨(hRsub q hqR).1, hgR q hqR, hf'0 q hqR⟩
    · rw [hf'v q hqR]
      exact hinv.maskRep q
  · -- cmapZero
    intro q hncl
    have hnot : ¬ Claimed w h g st q ∧ q ∉ R := by
      constructor
      · exact fun hc => hncl ((hClaimedIff q).mpr (Or.inl hc))
      · exact fun hc => hncl ((hClaimedIff q).mpr (Or.inr hc))
    rw [hc'v q hnot.2]
    exact hinv.cmapZero q hnot.1
  · -- cmapRange
    intro q hcl
    rw [hci]
    by_cases hqR : q ∈ R
    · rw [hc'0 q hqR]
      omega
    · rcases (hClaimedIff q).mp hcl with hcs | hqR2
      · have := hinv.cmapRange q hcs
        rw [hc'v q hqR]
        omega
      · exact absurd hqR2 hqR
  · -- classConn
    intro i hi0 hi1
    rw [hci] at hi1
    by_cases hilt : i < n
    · rw [hclassEq i hilt]
      exact hinv.classConn i hi0 hilt
    · have hieq : i = n := by omega
      subst hieq
      rw [hclassNew]
      refine ⟨p, hpR, ?_⟩
      intro q hq
      have hq' : reach w h m scale maxDist st.mask (p.1, p.2) q := hq
      have hp2 : p = ((p.1, p.2) : ℕ × ℕ) := rfl
      rw [hp2]
      clear hq
      induction hq' with
      | refl => exact Relation.ReflTransGen.refl
      | tail hab hbc ih =>
        refine Relation.ReflTransGen.tail ih ⟨hab, ?_, gridEdge_of_submask hmg hbc⟩
        exact Relation.ReflTransGen.tail hab hbc
  · -- largest bookkeeping
    rw [hli, hla, hci]
    right
    by_cases hcmp : st.largest_area < a
    · rw [if_pos hcmp, if_pos hcmp]
      refine ⟨hnn, by omega, hacard, ?_, ?_⟩
      · intro i hi0 hi1
        by_cases hilt : i < n
        · rw [hclFinEq i hilt]
          rcases hinv.largest with ⟨hc0, _, _⟩ | ⟨_, _, _, hall, _⟩
          · omega
          · have := hall i hi0 hilt
            omega
        · have hieq : i = n := by omega
          subst hieq
          omega
      · intro i hi0 hi1
        rw [hclFinEq i hi1]
        rcases hinv.largest with ⟨hc0, _, _⟩ | ⟨_, _, _, hall, _⟩
        · omega
        · have := hall i hi0 hi1
          omega
    · rw [if_neg hcmp, if_neg hcmp]
      rcases hinv.largest with ⟨hc0, _, hla0⟩ | ⟨hl0, hl1, hl2, hall, hstrict⟩
      · omega
      · rw [hclFinEq st.largest_ind hl1]
        refine ⟨hl0, by omega, hl2, ?_, ?_⟩
        · intro i hi0 hi1
          by_cases hilt : i < n
          · rw [hclFinEq i hilt]
            exact hall i hi0 hilt
          · have hieq : i = n := by omega
            subst hieq
            omega
        · intro i hi0 hi1
          rw [hclFinEq i (by omega)]
          exact hstrict i hi0 hi1

/-- One outer-scan step preserves the segmentation invariant, never
revives a zeroed working-copy cell, leaves the visited cell zeroed, and
never decreases the id counter. -/
theorem segStep_preserves (scale maxDist : ℚ) (m w h : ℕ) (g : Img) (st : SegState)
    (p : ℕ × ℕ) (hp : inB w h p) (hmd : 0 ≤ maxDist)
    (hinv : SegInv scale maxDist m w h g st) :
    ∃ st', segStep scale maxDist m w h (some st) p = some st' ∧
      SegInv scale maxDist m w h g st' ∧
      (∀ a2 b2 : ℕ, st.mask a2 b2 = 0 → st'.mask a2 b2 = 0) ∧
      st'.mask p.1 p.2 = 0 ∧
      st.current_ind ≤ st'.current_ind := by
  by_cases hmask : st.mask p.1 p.2 = 0
  · exact ⟨st, segStep_skip hmask, hinv, fun a2 b2 hz => hz, hmask, le_refl _⟩
  have htot := img_BFS_total p.1 p.2 st.current_ind st.mask st.cmap scale maxDist
    m w h hp.1 hp.2
  obtain ⟨r, hr⟩ := Option.isSome_iff_exists.mp htot
  obtain ⟨a, f', cm'⟩ := r
  have hr2 : img_BFS p.1 p.2 st.current_ind st.mask st.cmap scale maxDist m w h (w * h + 1)
      = some (a,
        ({ mask := f', cmap := cm',
           largest_ind := if st.largest_area < a then st.current_ind else st.largest_ind,
           largest_area := if st.largest_area < a then a else st.largest_area,
           current_ind := st.current_ind + 1 } : SegState).mask,
        ({ mask := f', cmap := cm',
           largest_ind := if st.largest_area < a then st.current_ind else st.largest_ind,
           largest_area := if st.largest_area < a then a else st.largest_area,
           current_ind := st.current_ind + 1 } : SegState).cmap) := hr
  obtain ⟨hinv', hmono, hpz⟩ := segPass_inv scale maxDist m w h g st
    { mask := f', cmap := cm',
      largest_ind := if st.largest_area < a then st.current_ind else st.largest_ind,
      largest_area := if st.largest_area < a then a else st.largest_area,
      current_ind := st.current_ind + 1 } p a hp hmask hmd hinv hr2 rfl rfl rfl
  refine ⟨_, ?_, hinv', hmono, hpz, by
    show st.current_ind ≤ st.current_ind + 1
    omega⟩
  rw [segStep]
  simp only [Option.bind_eq_bind, Option.some_bind, if_pos hmask]
  rw [hr]
  rfl

/-- Folding the outer scan over any list of in-bounds cells keeps the
segmentation invariant and zeroes every visited cell. -/
theorem segFold_inv (scale maxDist : ℚ) (m w h : ℕ) (g : Img) (hmd : 0 ≤ maxDist) :
    ∀ (ps : List (ℕ × ℕ)) (st : SegState), (∀ p ∈ ps, inB w h p) →
      SegInv scale maxDist m w h g st →
      ∃ st', ps.foldl (segStep scale maxDist m w h) (some st) = some st' ∧
        SegInv scale maxDist m w h g st' ∧
        (∀ a2 b2 : ℕ, st.mask a2 b2 = 0 → st'.mask a2 b2 = 0) ∧
        (∀ p ∈ ps, st'.mask p.1 p.2 = 0) ∧
        st.current_ind ≤ st'.current_ind := by
  intro ps
  induction ps with
  | nil =>
    intro st _ hinv
    exact ⟨st, rfl, hinv, fun a2 b2 hz => hz, fun p hp => absurd hp (List.not_mem_nil p),
      le_refl _⟩
  | cons p ps ih =>
    intro st hin hinv
    obtain ⟨st1, hstep, hinv1, hmono1, hz1, hle1⟩ := segStep_preserves scale maxDist m w h g
      st p (hin p (List.mem_cons_self p ps)) hmd hinv
    obtain ⟨st', hfold, hinv', hmono', hz', hle'⟩ := ih st1
      (fun q hq => hin q (List.mem_cons_of_mem p hq)) hinv1
    refine ⟨st', ?_, hinv', fun a2 b2 hz => hmono' a2 b2 (hmono1 a2 b2 hz), ?_, by omega⟩
    · rw [List.foldl_cons, hstep]
      exact hfold
    · intro q hq
      rcases List.mem_cons.mp hq with rfl | hq2
      · exact hmono' q.1 q.2 hz1
      · exact hz' q hq2

/-- The initial state of the outer scan satisfies the invariant. -/
theorem segInit_inv (scale maxDist : ℚ) (m w h : ℕ) (g : Img) :
    SegInv scale maxDist m w h g (segInit g) := by
  refine ⟨?_, ?_, ?_, ?_, ?_⟩
  · intro q
    exact Or.inl rfl
  · intro q _
    rfl
  · intro q hcl
    exact absurd hcl.2.2 hcl.2.1
  · intro i hi0 hi1
    exact absurd hi1 (by
      show ¬ i < (segInit g).current_ind
      simp only [segInit]
      omega)
  · left
    exact ⟨rfl, rfl, rfl⟩

/-- `segRun` always completes, its final state satisfies the invariant,
and every in-bounds cell of the working copy ends up zeroed (every
non-zero source cell was claimed by some pass). -/
theorem segRun_char (scale maxDist : ℚ) (m w h : ℕ) (g : Img) (hmd : 0 ≤ maxDist) :
    ∃ st', segRun scale maxDist m w h g = some st' ∧
      SegInv scale maxDist m w h g st' ∧
      (∀ p : ℕ × ℕ, inB w h p → st'.mask p.1 p.2 = 0) := by
  obtain ⟨st', hfold, hinv', _, hz', _⟩ := segFold_inv scale maxDist m w h g hmd
    (rowMajor w h) (segInit g) (fun p hp => mem_rowMajor.mp hp) (segInit_inv scale maxDist m w h g)
  exact ⟨st', hfold, hinv', fun p hp => hz' p (mem_rowMajor.mpr ⟨hp.1, hp.2⟩)⟩

/-- Claim C2: `filter_background` selects the cluster id of maximum area
(ids are assigned in row-major encounter order, and the strict comparison
makes the first-found id win ties), and produces an output equal to the
original input wherever the cluster map holds the winning id and zero at
every other in-bounds cell; exactly one cluster survives in the output. -/
theorem filter_background_keeps_first_largest (scale maxDist : ℚ) (m w h : ℕ) (g : Img)
    (st : SegState) (hmd : 0 ≤ maxDist)
    (hrun : segRun scale maxDist m w h g = some st)
    (hne : ∃ p : ℕ × ℕ, inB w h p ∧ g p.1 p.2 ≠ 0) :
    (0 ≤ st.largest_ind ∧ st.largest_ind < st.current_ind) ∧
      (∀ i : ℤ, 0 ≤ i → i < st.current_ind →
        (clusterCells w h g st.cmap i).card ≤ (clusterCells w h g st.cmap st.largest_ind).card) ∧
      (∀ i : ℤ, 0 ≤ i → i < st.largest_ind →
        (clusterCells w h g st.cmap i).card < (clusterCells w h g st.cmap st.largest_ind).card) ∧
      (∀ x y : ℕ, x < w → y < h →
        mask_by_cluster_id w h st.cmap st.largest_ind g x y
          = if st.cmap x y = st.largest_ind then g x y else 0) ∧
      (∀ i : ℤ, 0 ≤ i → i < st.current_ind →
        ((∃ x y : ℕ, x < w ∧ y < h ∧ mask_by_cluster_id w h st.cmap st.largest_ind g x y ≠ 0 ∧
            st.cmap x y = i)
          ↔ i = st.largest_ind)) := by
  obtain ⟨st2, hrun2, hinv, hzero⟩ := segRun_char scale maxDist m w h g hmd
  rw [hrun2] at hrun
  have hst : st2 = st := Option.some.inj hrun
  subst hst
  obtain ⟨p0, hp0in, hp0nz⟩ := hne
  have hcl0 : Claimed w h g st2 p0 := ⟨hp0in, hp0nz, hzero p0 hp0in⟩
  have hpos : 0 < st2.current_ind := by
    have := hinv.cmapRange p0 hcl0
    omega
  rcases hinv.largest with ⟨hc0, _, _⟩ | ⟨hl0, hl1, hl2, hall, hstrict⟩
  · omega
  have hfin : ∀ i : ℤ, clFin w h g st2 i = clusterCells w h g st2.cmap i := by
    intro i
    ext q
    simp only [clFin, clusterCells, Finset.mem_filter, mem_gridCells]
    constructor
    · rintro ⟨hcell, hgq, _, hcm⟩
      exact ⟨hcell, hgq, hcm⟩
    · rintro ⟨hcell, hgq, hcm⟩
      exact ⟨hcell, hgq, hzero q ⟨hcell.1, hcell.2⟩, hcm⟩
  have hmaskeq : ∀ x y : ℕ, x < w → y < h →
      mask_by_cluster_id w h st2.cmap st2.largest_ind g x y
        = if st2.cmap x y = st2.largest_ind then g x y else 0 := by
    intro x y hx hy
    rw [mask_by_cluster_id, if_pos ⟨hx, hy⟩]
  refine ⟨⟨hl0, hl1⟩, ?_, ?_, hmaskeq, ?_⟩
  · intro i hi0 hi1
    have h1 := hall i hi0 hi1
    rw [hfin i, hfin st2.largest_ind, hl2] at *
    omega
  · intro i hi0 hi1
    have h1 := hstrict i hi0 hi1
    rw [hfin i, hfin st2.largest_ind, hl2] at *
    omega
  · intro i hi0 hi1
    constructor
    · rintro ⟨x, y, hx, hy, hnz0, hcmi⟩
      rw [hmaskeq x y hx hy] at hnz0
      by_cases hc : st2.cmap x y = st2.largest_ind
      · rw [← hcmi, hc]
      · rw [if_neg hc] at hnz0
        exact absurd rfl hnz0
    · intro hi2
      subst hi2
      obtain ⟨s0, hs0, _⟩ := hinv.classConn st2.largest_ind hl0 hl1
      obtain ⟨⟨hsin, hsg, _⟩, hscm⟩ := hs0
      refine ⟨s0.1, s0.2, hsin.1, hsin.2, ?_, hscm⟩
      rw [hmaskeq s0.1 s0.2 hsin.1 hsin.2, if_pos hscm]
      exact hsg

theorem gridEdge_symm {w h m : ℕ} {scale maxDist : ℚ} {g : Img} {p q : ℕ × ℕ}
    (he : gridEdge w h m scale maxDist g p q) : gridEdge w h m scale maxDist g q p := by
  obtain ⟨h1, h2, h3, h4, h5, h6⟩ := he
  refine ⟨h2, h1, h4, h3, ?_, ?_⟩
  · rw [Nat.dist_comm p.1 q.1, Nat.dist_comm p.2 q.2]
    exact h5
  · rw [Nat.dist_comm (g q.1 q.2) (g p.1 p.2)]
    exact h6

theorem reach_symm {w h m : ℕ} {scale maxDist : ℚ} {g : Img} {p q : ℕ × ℕ}
    (hr : reach w h m scale maxDist g p q) : reach w h m scale maxDist g q p :=
  Relation.ReflTransGen.symmetric (fun _ _ he => gridEdge_symm he) hr

/-- Once the working copy is entirely zero, the remaining outer scan is a
no-op. -/
theorem segFold_all_zero (scale maxDist : ℚ) (m w h : ℕ) :
    ∀ (ps : List (ℕ × ℕ)) (st : SegState), (∀ a b : ℕ, st.mask a b = 0) →
      ps.foldl (segStep scale maxDist m w h) (some st) = some st := by
  intro ps
  induction ps with
  | nil => exact fun st _ => rfl
  | cons p ps ih =>
    intro st hz
    rw [List.foldl_cons, segStep_skip (hz p.1 p.2)]
    exact ih st hz

/-- On a grid whose non-zero cells form one mutually reachable
depth-continuity region, `filter_background` is the identity: the first
pass claims everything, the only cluster (id 0) wins, and masking keeps
every cell. -/
theorem segRun_single_component (scale maxDist : ℚ) (m w h : ℕ) (g1 : Img)
    (hmd : 0 ≤ maxDist)
    (hsup : ∀ a2 b2 : ℕ, g1 a2 b2 ≠ 0 → a2 < w ∧ b2 < h)
    (hconn : ∀ p q : ℕ × ℕ, inB w h p → g1 p.1 p.2 ≠ 0 → inB w h q → g1 q.1 q.2 ≠ 0 →
      reach w h m scale maxDist g1 p q) :
    filter_background scale maxDist m w h g1 = some g1 := by
  have haux : ∀ ps : List (ℕ × ℕ), (∀ p ∈ ps, inB w h p) →
      (ps.foldl (segStep scale maxDist m w h) (some (segInit g1)) = some (segInit g1) ∧
        ∀ p ∈ ps, g1 p.1 p.2 = 0) ∨
      (∃ stf, ps.foldl (segStep scale maxDist m w h) (some (segInit g1)) = some stf ∧
        (∀ a2 b2 : ℕ, stf.mask a2 b2 = 0) ∧ (∀ a2 b2 : ℕ, stf.cmap a2 b2 = 0) ∧
        stf.largest_ind = 0) := by
    intro ps
    induction ps with
    | nil => exact fun _ => Or.inl ⟨rfl, fun p hp => absurd hp (List.not_mem_nil p)⟩
    | cons p ps ih =>
      intro hin
      have hpin : inB w h p := hin p (List.mem_cons_self p ps)
      by_cases hzp : g1 p.1 p.2 = 0
      · rw [List.foldl_cons, segStep_skip hzp]
        rcases ih (fun q hq => hin q (List.mem_cons_of_mem p hq)) with
          ⟨hfold, hall⟩ | ⟨stf, hfold, h1, h2, h3⟩
        · refine Or.inl ⟨hfold, ?_⟩
          intro q hq
          rcases List.mem_cons.mp hq with rfl | hq2
          · exact hzp
          · exact hall q hq2
        · exact Or.inr ⟨stf, hfold, h1, h2, h3⟩
      · right
        have htot := img_BFS_total p.1 p.2 0 g1 (fun _ _ => 0) scale maxDist m w h
          hpin.1 hpin.2
        obtain ⟨r, hr⟩ := Option.isSome_iff_exists.mp htot
        obtain ⟨a, f', cm'⟩ := r
        obtain ⟨hRepI, hRepC, harea⟩ := img_BFS_char p.1 p.2 0 g1 (fun _ _ => 0)
          scale maxDist m w h (w * h + 1) a f' cm' hpin.1 hpin.2 hzp hmd hr
        have hRNZ : ∀ q : ℕ × ℕ,
            q ∈ {r : ℕ × ℕ | reach w h m scale maxDist g1 (p.1, p.2) r}
              ↔ (inB w h q ∧ g1 q.1 q.2 ≠ 0) := by
          intro q
          constructor
          · exact fun hq => reach_mem ⟨hpin, hzp⟩ hq
          · rintro ⟨hqin, hqnz⟩
            exact hconn (p.1, p.2) q hpin hzp hqin hqnz
        have hmask0 : ∀ a2 b2 : ℕ, f' a2 b2 = 0 := by
          intro a2 b2
          by_cases hq : (a2, b2) ∈ {r : ℕ × ℕ | reach w h m scale maxDist g1 (p.1, p.2) r}
          · exact hRepI.1 (a2, b2) hq
          · rw [hRepI.2 (a2, b2) hq]
            by_contra hnz
            exact hq ((hRNZ (a2, b2)).mpr ⟨⟨(hsup a2 b2 hnz).1, (hsup a2 b2 hnz).2⟩, hnz⟩)
        have hcm0 : ∀ a2 b2 : ℕ, cm' a2 b2 = 0 := by
          intro a2 b2
          by_cases hq : (a2, b2) ∈ {r : ℕ × ℕ | reach w h m scale maxDist g1 (p.1, p.2) r}
          · exact hRepC.1 (a2, b2) hq
          · exact hRepC.2 (a2, b2) hq
        have hcntf : cnt w h f' = 0 := by
          unfold cnt
          apply Finset.card_eq_zero.mpr
          apply Finset.filter_eq_empty_iff.mpr
          intro q _
          simp [hmask0 q.1 q.2]
        have ha2 : 0 < a := by omega
        set stf1 : SegState :=
          { mask := f', cmap := cm',
            largest_ind := if (segInit g1).largest_area < a then (segInit g1).current_ind
              else (segInit g1).largest_ind,
            largest_area := if (segInit g1).largest_area < a then a
              else (segInit g1).largest_area,
            current_ind := (segInit g1).current_ind + 1 } with hstf1
        have hstep : segStep scale maxDist m w h (some (segInit g1)) p = some stf1 := by
          rw [segStep]
          simp only [Option.bind_eq_bind, Option.some_bind,
            if_pos (show (segInit g1).mask p.1 p.2 ≠ 0 from hzp)]
          rw [show img_BFS p.1 p.2 (segInit g1).current_ind (segInit g1).mask (segInit g1).cmap
            scale maxDist m w h (w * h + 1) = some (a, f', cm') from hr]
          rfl
        refine ⟨stf1, ?_, hmask0, hcm0, ?_⟩
        · rw [List.foldl_cons, hstep]
          exact segFold_all_zero scale maxDist m w h ps _ hmask0
        · show (if (segInit g1).largest_area < a then (segInit g1).current_ind
            else (segInit g1).largest_ind) = 0
          rw [if_pos (show (segInit g1).largest_area < a from ha2)]
          rfl
  rcases haux (rowMajor w h) (fun p hp => mem_rowMajor.mp hp) with
    ⟨hfold, hall⟩ | ⟨stf, hfold, hm0, hc0, hl0⟩
  · rw [filter_background, segRun, hfold]
    show some (mask_by_cluster_id w h (segInit g1).cmap (segInit g1).largest_ind g1) = some g1
    congr 1
    funext a2 b2
    rw [mask_by_cluster_id]
    by_cases hb : a2 < w ∧ b2 < h
    · rw [if_pos hb]
      rw [if_neg (show ¬ ((segInit g1).cmap a2 b2 = (segInit g1).largest_ind) from by
        show ¬ ((0 : ℤ) = -1)
        omega)]
      have : g1 a2 b2 = 0 := hall (a2, b2) (mem_rowMajor.mpr ⟨hb.1, hb.2⟩)
      rw [this]
    · rw [if_neg hb]
  · rw [filter_background, segRun, hfold]
    show some (mask_by_cluster_id w h stf.cmap stf.largest_ind g1) = some g1
    congr 1
    funext a2 b2
    rw [mask_by_cluster_id]
    by_cases hb : a2 < w ∧ b2 < h
    · rw [if_pos hb, hc0 a2 b2, hl0, if_pos rfl]
    · rw [if_neg hb]

/-- Claim C4: running `segment` (`filter_background`) a second time on its
own output, with the same `maxDepthDelta` and `manhattanRadius`, returns
the output unchanged. -/
theorem segment_idempotent (scale maxDist : ℚ) (m w h : ℕ) (g g1 : Img)
    (hmd : 0 ≤ maxDist)
    (hsup : ∀ a2 b2 : ℕ, g a2 b2 ≠ 0 → a2 < w ∧ b2 < h)
    (h1 : filter_background scale maxDist m w h g = some g1) :
    filter_background scale maxDist m w h g1 = some g1 := by
  obtain ⟨st, hrun, hinv, hzero⟩ := segRun_char scale maxDist m w h g hmd
  rw [filter_background, hrun, Option.map_some'] at h1
  have hg1 : g1 = mask_by_cluster_id w h st.cmap st.largest_ind g := (Option.some.inj h1).symm
  have hval : ∀ a2 b2 : ℕ, a2 < w → b2 < h →
      g1 a2 b2 = if st.cmap a2 b2 = st.largest_ind then g a2 b2 else 0 := by
    intro a2 b2 ha hb
    rw [hg1, mask_by_cluster_id, if_pos ⟨ha, hb⟩]
  have hoob : ∀ a2 b2 : ℕ, ¬ (a2 < w ∧ b2 < h) → g1 a2 b2 = g a2 b2 := by
    intro a2 b2 hb
    rw [hg1, mask_by_cluster_id, if_neg hb]
  have hsup1 : ∀ a2 b2 : ℕ, g1 a2 b2 ≠ 0 → a2 < w ∧ b2 < h := by
    intro a2 b2 hnz
    by_cases hb : a2 < w ∧ b2 < h
    · exact hb
    · refine absurd (hsup a2 b2 ?_) hb
      rw [← hoob a2 b2 hb]
      exact hnz
  have hNZ : ∀ r : ℕ × ℕ, (inB w h r ∧ g1 r.1 r.2 ≠ 0)
      ↔ r ∈ classOf w h g st st.largest_ind := by
    intro r
    constructor
    · rintro ⟨hin, hnz⟩
      rw [hval r.1 r.2 hin.1 hin.2] at hnz
      by_cases hc : st.cmap r.1 r.2 = st.largest_ind
      · rw [if_pos hc] at hnz
        exact ⟨⟨hin, hnz, hzero r hin⟩, hc⟩
      · rw [if_neg hc] at hnz
        exact absurd rfl hnz
    · rintro ⟨⟨hin, hgq, _⟩, hcm⟩
      refine ⟨hin, ?_⟩
      rw [hval r.1 r.2 hin.1 hin.2, if_pos hcm]
      exact hgq
  have hg1val : ∀ r : ℕ × ℕ, r ∈ classOf w h g st st.largest_ind → g1 r.1 r.2 = g r.1 r.2 := by
    rintro r ⟨⟨hin, _, _⟩, hcm⟩
    rw [hval r.1 r.2 hin.1 hin.2, if_pos hcm]
  have hconn1 : ∀ p q : ℕ × ℕ, inB w h p → g1 p.1 p.2 ≠ 0 → inB w h q → g1 q.1 q.2 ≠ 0 →
      reach w h m scale maxDist g1 p q := by
    intro p q hpin hpnz hqin hqnz
    have hpC := (hNZ p).mp ⟨hpin, hpnz⟩
    have hqC := (hNZ q).mp ⟨hqin, hqnz⟩
    by_cases hL : 0 ≤ st.largest_ind
    · rcases hinv.largest with ⟨_, hlm, _⟩ | ⟨_, hl1, _, _, _⟩
      · rw [hlm] at hL
        omega
      · obtain ⟨s0, hs0, hpath⟩ := hinv.classConn st.largest_ind hL hl1
        have hcone : ∀ r : ℕ × ℕ,
            Relation.ReflTransGen
              (edgeIn w h m scale maxDist g (classOf w h g st st.largest_ind)) s0 r →
            reach w h m scale maxDist g1 s0 r := by
          intro r hr
          induction hr with
          | refl => exact Relation.ReflTransGen.refl
          | tail hab hbc ih =>
            obtain ⟨haS, hbS, he⟩ := hbc
            refine Relation.ReflTransGen.tail ih ?_
            obtain ⟨he1, he2, he3, he4, he5, he6⟩ := he
            rw [← hg1val _ haS] at he3 he6
            rw [← hg1val _ hbS] at he4 he6
            exact ⟨he1, he2, he3, he4, he5, he6⟩
        exact Relation.ReflTransGen.trans (reach_symm (hcone p (hpath p hpC)))
          (hcone q (hpath q hqC))
    · obtain ⟨hcl, hcm⟩ := hpC
      have := hinv.cmapRange p hcl
      omega
  exact segRun_single_component scale maxDist m w h g1 hmd hsup1 hconn1

/-- Segmenting the 1×1 single-pixel grid: computed final scan state. -/
theorem segRun_single_pixel : segRun 1 1 1 1 1 singlePixelGrid = some witSt := by
  norm_num [segRun, rowMajor, segStep, segInit, img_BFS, bfsLoop, bfsScan, scanPositions,
    rangeIcc, bfsClaim, skipPixel, updImg, updCMap, singlePixelGrid, Nat.dist,
    List.range_succ, List.flatMap_cons, List.flatMap_nil, List.foldl_cons, List.foldl_nil,
    Option.bind, Option.map, witSt, witMask, witCMap]

/-- Claim C1 evidence (code bug): the 1×1 grid with exactly one non-zero
pixel yields one cluster, but its recorded area is 3, not 1: `img_BFS`
initialises `cluster_area` to 1 and then increments once per popped centre
(the seed is pushed by its own first scan and popped again, and the final
empty iteration also counts), so every pass records
`claimed cells + 2`. -/
theorem single_pixel_records_area_three :
    cnt 1 1 singlePixelGrid = 1 ∧
    (img_BFS 0 0 0 singlePixelGrid (fun _ _ => 0) 1 1 1 1 1 2).map (fun r => r.1)
      = some 3 ∧
    (segRun 1 1 1 1 1 singlePixelGrid).map (fun st => (st.largest_area, st.current_ind))
      = some (3, 1) := by
  refine ⟨by decide, ?_, ?_⟩
  · norm_num [img_BFS, bfsLoop, bfsScan, scanPositions, rangeIcc, bfsClaim, skipPixel,
      updImg, updCMap, singlePixelGrid, Nat.dist, List.range_succ, List.flatMap_cons,
      List.flatMap_nil, List.foldl_cons, List.foldl_nil, Option.map]
  · rw [segRun_single_pixel]
    rfl

/-- Witness for C2: the single-pixel segmentation yields cluster id 0 as
the (only and first) maximum-area cluster, and masking keeps exactly it. -/
theorem filter_background_keeps_first_largest_witness :
    ((0 : ℚ) ≤ 1 ∧ (∃ p : ℕ × ℕ, inB 1 1 p ∧ singlePixelGrid p.1 p.2 ≠ 0)) ∧
    ((0 ≤ witSt.largest_ind ∧ witSt.largest_ind < witSt.current_ind) ∧
      (∀ i : ℤ, 0 ≤ i → i < witSt.current_ind →
        (clusterCells 1 1 singlePixelGrid witSt.cmap i).card
          ≤ (clusterCells 1 1 singlePixelGrid witSt.cmap witSt.largest_ind).card) ∧
      (∀ i : ℤ, 0 ≤ i → i < witSt.largest_ind →
        (clusterCells 1 1 singlePixelGrid witSt.cmap i).card
          < (clusterCells 1 1 singlePixelGrid witSt.cmap witSt.largest_ind).card) ∧
      (∀ x y : ℕ, x < 1 → y < 1 →
        mask_by_cluster_id 1 1 witSt.cmap witSt.largest_ind singlePixelGrid x y
          = if witSt.cmap x y = witSt.largest_ind then singlePixelGrid x y else 0) ∧
      (∀ i : ℤ, 0 ≤ i → i < witSt.current_ind →
        ((∃ x y : ℕ, x < 1 ∧ y < 1 ∧
            mask_by_cluster_id 1 1 witSt.cmap witSt.largest_ind singlePixelGrid x y ≠ 0 ∧
            witSt.cmap x y = i) ↔ i = witSt.largest_ind))) :=
  ⟨⟨by norm_num, ⟨(0, 0), by decide, by decide⟩⟩,
    filter_background_keeps_first_largest 1 1 1 1 1 singlePixelGrid witSt (by norm_num)
      segRun_single_pixel ⟨(0, 0), by decide, by decide⟩⟩

/-- The single-pixel grid is supported inside the 1×1 bounds. -/
theorem singlePixelGrid_support : ∀ a b : ℕ, singlePixelGrid a b ≠ 0 → a < 1 ∧ b < 1 := by
  intro a b hnz
  rw [singlePixelGrid] at hnz
  by_cases hc : a = 0 ∧ b = 0
  · omega
  · rw [if_neg hc] at hnz
    exact absurd rfl hnz

/-- Segmenting the 1×1 single-pixel grid: computed output grid. -/
theorem filter_single_pixel : filter_background 1 1 1 1 1 singlePixelGrid = some witOut := by
  rw [filter_background, segRun_single_pixel, Option.map_some']
  rfl

/-- Witness for C4: segmenting the single-pixel grid's own output changes
nothing. -/
theorem segment_idempotent_witness :
    ((0 : ℚ) ≤ 1 ∧ filter_background 1 1 1 1 1 singlePixelGrid = some witOut) ∧
    filter_background 1 1 1 1 1 witOut = some witOut :=
  ⟨⟨by norm_num, filter_single_pixel⟩,
    segment_idempotent 1 1 1 1 1 singlePixelGrid witOut (by norm_num)
      singlePixelGrid_support filter_single_pixel⟩
